import Mathlib

/-!
Verification of the deduplication-and-planning engine of the
EnglishEnvironmentExtension repository.

JS strings are modelled as lists of UTF-16 code units (`List Nat`); DOM
`Text` nodes and elements are modelled as integer handles; the DOM text
content is a function from handles to strings.  All machine arithmetic of
the source (32-bit FNV-1a hashing with `Math.imul` and `>>> 0`) is modelled
on `Nat` with explicit reduction modulo `2 ^ 32`.
-/

namespace EEE

/-- A JS string: its list of UTF-16 code units. -/
abbrev Str := List Nat

/-! ## TextNormalizer (src/frontend/eee/utils/TextNormalizer.ts) -/

/-- The ECMAScript whitespace class: the set matched by the regex class `\s`
and the set removed by `String.prototype.trim` (WhiteSpace plus
LineTerminator). -/
def isWhite (c : Nat) : Bool :=
  c == 0x9 || c == 0xA || c == 0xB || c == 0xC || c == 0xD || c == 0x20 ||
  c == 0xA0 || c == 0x1680 || (decide (0x2000 ≤ c) && decide (c ≤ 0x200A)) ||
  c == 0x2028 || c == 0x2029 || c == 0x202F || c == 0x205F || c == 0x3000 ||
  c == 0xFEFF

/-- The class of `ZERO_WIDTH_REGEX`: `[​-‍﻿]`. -/
def isZeroWidth (c : Nat) : Bool :=
  (decide (0x200B ≤ c) && decide (c ≤ 0x200D)) || c == 0xFEFF

/-- The class of the line-break regex `[\r\n]`. -/
def isLineBreak (c : Nat) : Bool :=
  c == 0xD || c == 0xA

/-- `s.replace(/P+/g, ' ')` for a character class `P`: every maximal run of
characters of the class becomes a single half-width space. -/
def collapseRuns (p : Nat → Bool) : Str → Str
  | [] => []
  | [c] => if p c then [0x20] else [c]
  | c1 :: c2 :: rest =>
    if p c1 && p c2 then collapseRuns p (c2 :: rest)
    else (if p c1 then 0x20 else c1) :: collapseRuns p (c2 :: rest)

/-- Drop the longest suffix of characters satisfying `p` (the right half of
`String.prototype.trim`). -/
def dropWhileRight (p : Nat → Bool) : Str → Str
  | [] => []
  | c :: t =>
    let r := dropWhileRight p t
    if r.isEmpty && p c then [] else c :: r

/-- `String.prototype.trim`: drop leading and trailing ECMAScript
whitespace. -/
def trimStr (s : Str) : Str :=
  dropWhileRight isWhite (s.dropWhile isWhite)

/-- Normalization configuration options (`NormalizeConfig`). -/
structure NormalizeConfig where
  trim : Bool
  collapseWhitespace : Bool
  removeZeroWidth : Bool
  convertFullWidth : Bool
  removeLineBreaks : Bool

/-- `DEFAULT_CONFIG` of TextNormalizer.ts. -/
def DEFAULT_CONFIG : NormalizeConfig :=
  { trim := true, collapseWhitespace := true, removeZeroWidth := true,
    convertFullWidth := true, removeLineBreaks := false }

/-- Step 1 of `normalizeText`: remove zero-width characters. -/
def stepZeroWidth (b : Bool) (s : Str) : Str :=
  if b then s.filter (fun c => !(isZeroWidth c)) else s

/-- Step 2 of `normalizeText`: convert the full-width space U+3000 to a
half-width space. -/
def stepFullWidth (b : Bool) (s : Str) : Str :=
  if b then s.map (fun c => if c == 0x3000 then 0x20 else c) else s

/-- Step 3 of `normalizeText`: replace runs of line breaks by a space. -/
def stepLineBreaks (b : Bool) (s : Str) : Str :=
  if b then collapseRuns isLineBreak s else s

/-- Step 4 of `normalizeText`: collapse consecutive whitespace. -/
def stepCollapse (b : Bool) (s : Str) : Str :=
  if b then collapseRuns isWhite s else s

/-- Step 5 of `normalizeText`: trim leading and trailing whitespace. -/
def stepTrim (b : Bool) (s : Str) : Str :=
  if b then trimStr s else s

/-- `normalizeText(text, config)`: the five optional steps of
TextNormalizer.ts, in source order. -/
def normalizeText (text : Str) (config : NormalizeConfig) : Str :=
  stepTrim config.trim
    (stepCollapse config.collapseWhitespace
      (stepLineBreaks config.removeLineBreaks
        (stepFullWidth config.convertFullWidth
          (stepZeroWidth config.removeZeroWidth text))))

/-- The test `/\s{2,}/.test(text)`: two consecutive whitespace characters
occur somewhere in the string. -/
def hasDoubleWhite : Str → Bool
  | [] => false
  | [_] => false
  | c1 :: c2 :: rest => (isWhite c1 && isWhite c2) || hasDoubleWhite (c2 :: rest)

/-- `needsNormalization(text)` of TextNormalizer.ts: the five checks, in
source order. -/
def needsNormalization (text : Str) : Bool :=
  !(text == trimStr text) ||
  text.any isZeroWidth ||
  text.contains 0x3000 ||
  hasDoubleWhite text ||
  text.any isLineBreak

/-! ## JS Map / Set on string keys, as insertion-ordered association lists -/

/-- `Map.prototype.get`. -/
def jsMapGet {α : Type} (m : List (Str × α)) (k : Str) : Option α :=
  (m.find? fun p => p.1 == k).map (fun p => p.2)

/-- `Map.prototype.has`. -/
def jsMapHas {α : Type} (m : List (Str × α)) (k : Str) : Bool :=
  (m.find? fun p => p.1 == k).isSome

/-- `Map.prototype.set`: overwrite in place when the key exists, append
otherwise. -/
def jsMapSet {α : Type} (m : List (Str × α)) (k : Str) (v : α) : List (Str × α) :=
  if jsMapHas m k then m.map fun p => if p.1 == k then (p.1, v) else p
  else m ++ [(k, v)]

/-- `Map.prototype.delete` (keys of a Map are unique). -/
def jsMapDelete {α : Type} (m : List (Str × α)) (k : Str) : List (Str × α) :=
  m.filter fun p => !(p.1 == k)

/-! ## HashUtils (src/unnamed/part_002) -/

def FNV_PRIME : Nat := 0x01000193

def FNV_OFFSET_BASIS : Nat := 0x811c9dc5

/-- The FNV-1a loop: XOR with the code unit, then `Math.imul` by the prime;
the 32-bit value pattern is tracked as a natural number below `2 ^ 32`. -/
def fnv1a (text : Str) : Nat :=
  text.foldl (fun h c => ((h ^^^ c) * FNV_PRIME) % 2 ^ 32) FNV_OFFSET_BASIS

/-- A lowercase hexadecimal digit as a code unit. -/
def hexDigitChar (d : Nat) : Nat :=
  if d < 10 then 48 + d else 87 + d

/-- `(hash >>> 0).toString(16).padStart(8, '0')` for a 32-bit value: its
eight hex digits, most significant first. -/
def toHex8 (n : Nat) : Str :=
  (List.range 8).map fun i => hexDigitChar (n / 16 ^ (7 - i) % 16)

/-- `hashText(text)`: 8-hex-digit FNV-1a 32-bit hash. -/
def hashText (text : Str) : Str :=
  toHex8 (fnv1a text)

/-- `generateCacheKey(textHash, userLevel)`: textHash ++ ":" ++ userLevel. -/
def generateCacheKey (textHash userLevel : Str) : Str :=
  textHash ++ [58] ++ userLevel

/-- The processing mode union type of the source. -/
inductive Mode where
  | original
  | translated
deriving DecidableEq, Repr

/-- The code units of the literal mode strings. -/
def modeStr : Mode → Str
  | .original => [111, 114, 105, 103, 105, 110, 97, 108]
  | .translated => [116, 114, 97, 110, 115, 108, 97, 116, 101, 100]

/-- `generateNodeFingerprint(textHash, userLevel, mode)`:
textHash ++ ":" ++ userLevel ++ ":" ++ mode. -/
def generateNodeFingerprint (textHash userLevel : Str) (mode : Mode) : Str :=
  textHash ++ [58] ++ userLevel ++ [58] ++ modeStr mode

/-! ## NodeFingerprintStore (src/frontend/eee/utils/NodeFingerprintStore.ts)

DOM `Text` nodes are integer handles and the current DOM text content is a
function from handles to strings.  The WeakMap is a function from handles to
optional entries.  The statistics counters of the store (totalMarked /
cacheHits / cacheMisses) never influence the stored map or any returned
boolean, and are not modelled. -/

structure NodeFingerprintInfo where
  fingerprint : Str
  textHash : Str
  userLevel : Str
  mode : Mode
  timestamp : Nat
  normalizedText : Str
deriving DecidableEq, Repr

/-- The WeakMap of the store. -/
abbrev FingerprintMap := Nat → Option NodeFingerprintInfo

/-- The entry `markAsProcessed` computes from the node's current text
content. -/
def mkNodeFingerprintInfo (dom : Nat → Str) (now node : Nat) (userLevel : Str)
    (mode : Mode) : NodeFingerprintInfo :=
  let rawText := dom node
  let normalizedText := normalizeText rawText DEFAULT_CONFIG
  let textHash := hashText normalizedText
  { fingerprint := generateNodeFingerprint textHash userLevel mode
    textHash := textHash
    userLevel := userLevel
    mode := mode
    timestamp := now
    normalizedText := normalizedText }

/-- `markAsProcessed(textNode, userLevel, mode)`. -/
def markAsProcessed (m : FingerprintMap) (dom : Nat → Str) (now node : Nat)
    (userLevel : Str) (mode : Mode) : FingerprintMap :=
  fun k =>
    if k = node then some (mkNodeFingerprintInfo dom now node userLevel mode)
    else m k

/-- `isProcessed(textNode, userLevel, mode)`: recompute the fingerprint from
the node's current text content and compare with the stored one. -/
def isProcessed (m : FingerprintMap) (dom : Nat → Str) (node : Nat)
    (userLevel : Str) (mode : Mode) : Bool :=
  match m node with
  | none => false
  | some stored =>
    stored.fingerprint ==
      generateNodeFingerprint (hashText (normalizeText (dom node) DEFAULT_CONFIG))
        userLevel mode

/-- `filterUnprocessed(textNodes, userLevel, mode)`. -/
def filterUnprocessed (m : FingerprintMap) (dom : Nat → Str) (nodes : List Nat)
    (userLevel : Str) (mode : Mode) : List Nat :=
  nodes.filter fun n => !(isProcessed m dom n userLevel mode)

/-! ## Content cache interface used by the planner

Modelled from the spec: the hash-addressed accessors `getByHash` and
`setByHash` of the Content Cache, which the Planner and the TextProcessor
call, are not among the provided sources (only the older text-keyed
TranslationCache is).  Per the spec (section 4.5) the Content Cache maps the
pair (content hash, proficiency level) to a previously obtained string. -/
def ContentCache := Str → Str → Option Str

/-- Modelled from the spec: `get(hash, level) -> string | absent`. -/
def contentGetByHash (cache : ContentCache) (textHash userLevel : Str) :
    Option Str :=
  cache textHash userLevel

/-- Modelled from the spec: `set(hash, level, value)`. -/
def contentSetByHash (cache : ContentCache) (textHash userLevel value : Str) :
    ContentCache :=
  fun h l => if h = textHash ∧ l = userLevel then some value else cache h l

/-! ## TextPlanner (src/frontend/eee/PROJECT.md, TextPlanner section) -/

/-- `TextNodeData` of types.ts: `rect` carries no logic and is omitted;
`element` and `node` are handles. -/
structure TextNodeData where
  id : Str
  text : Str
  path : Str
  element : Nat
  node : Nat
deriving DecidableEq, Repr

/-- `TextCandidate` of types.ts. -/
structure TextCandidate where
  nodeData : TextNodeData
  node : Nat
  element : Nat
  rawText : Str
  normalizedText : Str
  textHash : Str
  cacheKey : Str
deriving DecidableEq, Repr

/-- `TranslationPlanStats` of types.ts. -/
structure TranslationPlanStats where
  total : Nat
  fingerprintFiltered : Nat
  cached : Nat
  toSend : Nat
  unique : Nat
  normalized : Nat
  batchDedupSaved : Nat
deriving DecidableEq, Repr

/-- `TranslationPlan` of types.ts; the Map becomes an insertion-ordered
association list. -/
structure TranslationPlan where
  toApplyFromCache : List (TextCandidate × Str)
  toSend : List TextCandidate
  uniqueTexts : List Str
  textHashMap : List (Str × List TextCandidate)
  stats : TranslationPlanStats
deriving DecidableEq, Repr

/-- The `nodeDataMap` lookup: a JS Map built by inserting every
`TextNodeData` keyed by its node, so the last entry for a node wins. -/
def nodeDataLookup (textNodes : List TextNodeData) (node : Nat) :
    Option TextNodeData :=
  textNodes.reverse.find? fun d => d.node == node

/-- Step 2 of `createTranslationPlan`: the loop over the surviving nodes,
building candidates and splitting them into cache hits and API work.
Returns (candidates, toApplyFromCache, toSend, normalized count). -/
def buildCandidates (textNodes : List TextNodeData) (cache : ContentCache)
    (userLevel : Str) :
    List Nat →
      List TextCandidate × List (TextCandidate × Str) × List TextCandidate × Nat
  | [] => ([], [], [], 0)
  | n :: rest =>
    let acc := buildCandidates textNodes cache userLevel rest
    match nodeDataLookup textNodes n with
    | none => acc
    | some nodeData =>
      let rawText := nodeData.text
      let normalizedText := normalizeText rawText DEFAULT_CONFIG
      let textHash := hashText normalizedText
      let cacheKey := generateCacheKey textHash userLevel
      let candidate : TextCandidate :=
        { nodeData := nodeData, node := n, element := nodeData.element,
          rawText := rawText, normalizedText := normalizedText,
          textHash := textHash, cacheKey := cacheKey }
      let normCount := if needsNormalization rawText then acc.2.2.2 + 1 else acc.2.2.2
      match contentGetByHash cache textHash userLevel with
      | some cached =>
        if 0 < cached.length then
          (candidate :: acc.1, (candidate, cached) :: acc.2.1, acc.2.2.1, normCount)
        else
          (candidate :: acc.1, acc.2.1, candidate :: acc.2.2.1, normCount)
      | none => (candidate :: acc.1, acc.2.1, candidate :: acc.2.2.1, normCount)

/-- The loop body of `batchDeduplicate`: `textHashMap`, `seenHashes` and
`uniqueTexts` grow in candidate order. -/
def batchDedupGo :
    List TextCandidate → List (Str × List TextCandidate) → List Str → List Str →
      List Str × List (Str × List TextCandidate)
  | [], mapAcc, _, uniqAcc => (uniqAcc, mapAcc)
  | c :: rest, mapAcc, seen, uniq =>
    let hash := c.textHash
    let mapAcc2 :=
      if jsMapHas mapAcc hash then
        mapAcc.map fun p => if p.1 == hash then (p.1, p.2 ++ [c]) else p
      else mapAcc ++ [(hash, [c])]
    if seen.contains hash then batchDedupGo rest mapAcc2 seen uniq
    else batchDedupGo rest mapAcc2 (seen ++ [hash]) (uniq ++ [c.normalizedText])

/-- `batchDeduplicate(candidates)`: group candidates by text hash; the
first-seen normalized string per distinct hash becomes a unique text. -/
def batchDeduplicate (candidates : List TextCandidate) :
    List Str × List (Str × List TextCandidate) :=
  batchDedupGo candidates [] [] []

/-- `createTranslationPlan(textNodes, cache, userLevel)`: the three-layer
deduplication, producing the plan and its statistics. -/
def createTranslationPlan (textNodes : List TextNodeData) (dom : Nat → Str)
    (fp : FingerprintMap) (cache : ContentCache) (userLevel : Str) :
    TranslationPlan :=
  let unfingerprintedNodes :=
    filterUnprocessed fp dom (textNodes.map fun d => d.node) userLevel .original
  let fingerprintFiltered := textNodes.length - unfingerprintedNodes.length
  let built := buildCandidates textNodes cache userLevel unfingerprintedNodes
  let toApplyFromCache := built.2.1
  let toSend := built.2.2.1
  let dedup := batchDeduplicate toSend
  { toApplyFromCache := toApplyFromCache
    toSend := toSend
    uniqueTexts := dedup.1
    textHashMap := dedup.2
    stats :=
      { total := textNodes.length
        fingerprintFiltered := fingerprintFiltered
        cached := toApplyFromCache.length
        toSend := toSend.length
        unique := dedup.1.length
        normalized := built.2.2.2
        batchDedupSaved := toSend.length - dedup.1.length } }

/-- `validatePlan(plan)`: the three consistency checks, in source order. -/
def validatePlan (plan : TranslationPlan) : Bool :=
  if plan.stats.total !=
      plan.stats.fingerprintFiltered + plan.toApplyFromCache.length +
        plan.toSend.length then
    false
  else if plan.uniqueTexts.length != plan.stats.unique then false
  else if plan.textHashMap.length != plan.uniqueTexts.length then false
  else true

/-- The loop of `mergeApiResults` over `textHashMap`: `candidates[0]` of an
empty bucket is `undefined` and reading `.normalizedText` from it throws, so
an empty bucket is an error; an absent or empty translation is skipped. -/
def mergeGo (textToTranslation : List (Str × Str)) :
    List (Str × List TextCandidate) → List (Str × Str) →
      Except Unit (List (Str × Str))
  | [], acc => .ok acc
  | (hash, cands) :: rest, acc =>
    match cands.head? with
    | none => .error ()
    | some c0 =>
      match jsMapGet textToTranslation c0.normalizedText with
      | some translation =>
        if 0 < translation.length then
          mergeGo textToTranslation rest (jsMapSet acc hash translation)
        else mergeGo textToTranslation rest acc
      | none => mergeGo textToTranslation rest acc

/-- `mergeApiResults(plan, apiResults)`: a length mismatch against
`uniqueTexts` throws; otherwise expand the positional results through
`textHashMap` into a hash-to-translation map. -/
def mergeApiResults (plan : TranslationPlan) (apiResults : List Str) :
    Except Unit (List (Str × Str)) :=
  if apiResults.length ≠ plan.uniqueTexts.length then .error ()
  else
    let textToTranslation :=
      (plan.uniqueTexts.zip apiResults).foldl
        (fun m p => jsMapSet m p.1 p.2) []
    mergeGo textToTranslation plan.textHashMap []

/-! ## DomReplacer (src/unnamed/part_000) -/

/-- The DOM as seen by `applyTranslations`: text content, node and element
connectivity, and parent element of a text node. -/
structure DomState where
  text : Nat → Str
  nodeConnected : Nat → Bool
  parentElem : Nat → Option Nat
  elemConnected : Nat → Bool

/-- The liveness check of the source:
`node.isConnected && node.parentElement?.isConnected` (a missing parent
makes the optional chain `undefined`, which fails the check). -/
def nodeLive (dom : DomState) (node : Nat) : Bool :=
  dom.nodeConnected node &&
    (match dom.parentElem node with
     | none => false
     | some e => dom.elemConnected e)

/-- The loop of `applyTranslations`: skip candidates without a usable
translation or whose node is detached; otherwise write the translation as
the node's text content, re-fingerprint the node as translated, record its
id, and count it.  Returns the final DOM text, fingerprint map, replaced-id
set and applied count. -/
def applyTranslationsGo (hashToTranslation : List (Str × Str))
    (userLevel : Str) (now : Nat) :
    List TextCandidate → DomState → FingerprintMap → List Str → Nat →
      DomState × FingerprintMap × List Str × Nat
  | [], dom, fp, replaced, applied => (dom, fp, replaced, applied)
  | c :: rest, dom, fp, replaced, applied =>
    match jsMapGet hashToTranslation c.textHash with
    | none => applyTranslationsGo hashToTranslation userLevel now rest dom fp replaced applied
    | some translation =>
      if translation.length = 0 then
        applyTranslationsGo hashToTranslation userLevel now rest dom fp replaced applied
      else if nodeLive dom c.node then
        let dom2 : DomState :=
          { dom with text := fun k => if k = c.node then translation else dom.text k }
        let fp2 := markAsProcessed fp dom2.text now c.node userLevel .translated
        let replaced2 :=
          if replaced.contains c.nodeData.id then replaced
          else replaced ++ [c.nodeData.id]
        applyTranslationsGo hashToTranslation userLevel now rest dom2 fp2 replaced2 (applied + 1)
      else
        applyTranslationsGo hashToTranslation userLevel now rest dom fp replaced applied

/-- `applyTranslations(candidates, hashToTranslation, userLevel)`. -/
def applyTranslations (candidates : List TextCandidate)
    (hashToTranslation : List (Str × Str)) (userLevel : Str) (dom : DomState)
    (fp : FingerprintMap) (replaced : List Str) (now : Nat) :
    DomState × FingerprintMap × List Str × Nat :=
  applyTranslationsGo hashToTranslation userLevel now candidates dom fp replaced 0

/-! ## TranslationCache (src/frontend/eee/core/TranslationCache.ts)

The value type (`TranslationResult[]` in the source) never influences the
cache logic and is a type parameter.  `Date.now()` is an explicit `now`
argument; the IEEE-754 division of the eviction score is modelled as exact
rational division. -/

structure CacheItem (V : Type) where
  key : Str
  value : V
  timestamp : Nat
  accessCount : Nat

structure TranslationCache (V : Type) where
  entries : List (Str × CacheItem V)
  maxSize : Nat

/-- `generateKey(text, userLevel)`: text ++ "-" ++ userLevel. -/
def TranslationCache.generateKey (text userLevel : Str) : Str :=
  text ++ [45] ++ userLevel

/-- The eviction score `accessCount / (Date.now() - timestamp + 1)`. -/
def cacheScore {V : Type} (now : Nat) (item : CacheItem V) : ℚ :=
  (item.accessCount : ℚ) / ((now : ℚ) - (item.timestamp : ℚ) + 1)

/-- The loop of `evictLeastUsed`: track the strictly smallest score, the
initial best being `''` with score Infinity (represented as `none`). -/
def selectLeastUsedGo {V : Type} (now : Nat) :
    Str → Option ℚ → List (Str × CacheItem V) → Str
  | bestKey, _, [] => bestKey
  | bestKey, bestScore, (k, it) :: rest =>
    let score := cacheScore now it
    match bestScore with
    | none => selectLeastUsedGo now k (some score) rest
    | some s =>
      if score < s then selectLeastUsedGo now k (some score) rest
      else selectLeastUsedGo now bestKey (some s) rest

/-- The key `evictLeastUsed` chooses. -/
def selectLeastUsed {V : Type} (now : Nat)
    (entries : List (Str × CacheItem V)) : Str :=
  selectLeastUsedGo now [] none entries

/-- `evictLeastUsed()`: delete the chosen key; the empty initial key is
falsy, so an empty cache deletes nothing. -/
def evictLeastUsed {V : Type} (c : TranslationCache V) (now : Nat) :
    TranslationCache V :=
  let leastUsedKey := selectLeastUsed now c.entries
  if leastUsedKey.isEmpty then c
  else { c with entries := jsMapDelete c.entries leastUsedKey }

/-- `set(text, userLevel, results)`: evict when at capacity, then insert a
fresh item with access count 1. -/
def TranslationCache.set {V : Type} (c : TranslationCache V) (now : Nat)
    (text userLevel : Str) (results : V) : TranslationCache V :=
  let key := TranslationCache.generateKey text userLevel
  let c2 := if c.maxSize ≤ c.entries.length then evictLeastUsed c now else c
  { c2 with
    entries :=
      jsMapSet c2.entries key
        { key := key, value := results, timestamp := now, accessCount := 1 } }

/-- `get(text, userLevel)`: a hit bumps the access count and refreshes the
timestamp. -/
def TranslationCache.get {V : Type} (c : TranslationCache V) (now : Nat)
    (text userLevel : Str) : Option V × TranslationCache V :=
  let key := TranslationCache.generateKey text userLevel
  match jsMapGet c.entries key with
  | some item =>
    (some item.value,
      { c with
        entries :=
          jsMapSet c.entries key
            { item with accessCount := item.accessCount + 1, timestamp := now } })
  | none => (none, c)

/-- `clear()`. -/
def TranslationCache.clear {V : Type} (c : TranslationCache V) :
    TranslationCache V :=
  { c with entries := [] }

/-- One external get/set/clear call with its `Date.now()` value. -/
inductive CacheOp (V : Type) where
  | get (text userLevel : Str) (now : Nat)
  | set (text userLevel : Str) (results : V) (now : Nat)
  | clear

/-- Apply one call to the cache state. -/
def applyCacheOp {V : Type} (c : TranslationCache V) : CacheOp V → TranslationCache V
  | .get text userLevel now => (TranslationCache.get c now text userLevel).2
  | .set text userLevel results now => TranslationCache.set c now text userLevel results
  | .clear => TranslationCache.clear c

/-- A sequence of calls against the cache. -/
def runCacheOps {V : Type} (c : TranslationCache V) (ops : List (CacheOp V)) :
    TranslationCache V :=
  ops.foldl applyCacheOp c

/-- The freshly constructed cache. -/
def emptyCache (V : Type) (maxSize : Nat) : TranslationCache V :=
  { entries := [], maxSize := maxSize }

/-- The decision the `applyTranslations` loop takes for one candidate: a
candidate is written exactly when its hash maps to a non-empty translation
and its node passes the liveness check. -/
def willApply (dom : DomState) (hashToTranslation : List (Str × Str))
    (c : TextCandidate) : Bool :=
  match jsMapGet hashToTranslation c.textHash with
  | none => false
  | some translation =>
    if translation.length = 0 then false else nodeLive dom c.node

/-! ## Concrete fixtures used to evaluate theorems at concrete inputs -/

/-- A fully connected one-node DOM whose text content is "a" everywhere. -/
def domA : DomState :=
  { text := fun _ => [97], nodeConnected := fun _ => true,
    parentElem := fun _ => some 0, elemConnected := fun _ => true }

/-- A candidate carrying the one-character text "a" at level "A1". -/
def candA : TextCandidate :=
  { nodeData := { id := [49], text := [97], path := [], element := 1, node := 1 },
    node := 1, element := 1, rawText := [97], normalizedText := [97],
    textHash := hashText [97],
    cacheKey := generateCacheKey (hashText [97]) [65, 49] }

/-- Two text nodes carrying the FNV-1a-colliding ASCII texts "l9On" and
"H8aa". -/
def collisionNodes : List TextNodeData :=
  [{ id := [49], text := [108, 57, 79, 110], path := [], element := 1, node := 1 },
   { id := [50], text := [72, 56, 97, 97], path := [], element := 2, node := 2 }]

/-- An all-zero statistics record. -/
def statsZero : TranslationPlanStats :=
  { total := 0, fingerprintFiltered := 0, cached := 0, toSend := 0,
    unique := 0, normalized := 0, batchDedupSaved := 0 }

/-! ### Lemmas about the normalizer -/

/-- A generalization of `hasDoubleWhite` to an arbitrary class: two adjacent
characters of the class occur. -/
def hasPairOf (p : Nat → Bool) : Str → Bool
  | [] => false
  | [_] => false
  | c1 :: c2 :: rest => (p c1 && p c2) || hasPairOf p (c2 :: rest)

/-- A string with no leading and no trailing whitespace. -/
def trimmedStr (s : Str) : Prop :=
  (∀ c, s.head? = some c → isWhite c = false) ∧
  (∀ c, s.getLast? = some c → isWhite c = false)

theorem hasDoubleWhite_eq_hasPairOf (s : Str) :
    hasDoubleWhite s = hasPairOf isWhite s := by
  induction s with
  | nil => rfl
  | cons c1 t ih =>
    cases t with
    | nil => rfl
    | cons c2 r => rw [hasDoubleWhite, hasPairOf, ih]

theorem list_map_eq_self {α : Type} {f : α → α} {l : List α}
    (h : ∀ c ∈ l, f c = c) : l.map f = l := by
  induction l with
  | nil => rfl
  | cons c t ih =>
    simp only [List.map_cons, h c (List.mem_cons_self c t)]
    rw [ih fun x hx => h x (List.mem_cons_of_mem c hx)]

theorem collapseRuns_cons_not {p : Nat → Bool} {c : Nat} (t : Str)
    (h : p c = false) : collapseRuns p (c :: t) = c :: collapseRuns p t := by
  cases t with
  | nil => simp [collapseRuns, h]
  | cons c2 r => simp [collapseRuns, h]

theorem collapseRuns_ne_nil {p : Nat → Bool} {s : Str} (h : s ≠ []) :
    collapseRuns p s ≠ [] := by
  induction s with
  | nil => exact absurd rfl h
  | cons c1 t ih =>
    cases t with
    | nil =>
      by_cases h1 : p c1 = true <;> simp [collapseRuns, h1]
    | cons c2 r =>
      by_cases h12 : (p c1 && p c2) = true
      · rw [collapseRuns, if_pos h12]; exact ih (by simp)
      · rw [collapseRuns, if_neg h12]; simp

theorem mem_collapseRuns {p : Nat → Bool} :
    ∀ {s c : _}, c ∈ collapseRuns p s → c = 0x20 ∨ (c ∈ s ∧ p c = false) := by
  intro s
  induction s with
  | nil => intro c hc; simp [collapseRuns] at hc
  | cons c1 t ih =>
    intro c hc
    cases t with
    | nil =>
      by_cases h1 : p c1 = true
      · simp [collapseRuns, h1] at hc; exact Or.inl hc
      · simp only [Bool.not_eq_true] at h1
        simp [collapseRuns, h1] at hc
        exact Or.inr ⟨by simp [hc], hc ▸ h1⟩
    | cons c2 r =>
      by_cases h12 : (p c1 && p c2) = true
      · rw [collapseRuns, if_pos h12] at hc
        rcases ih hc with h | ⟨hm, hp⟩
        · exact Or.inl h
        · exact Or.inr ⟨List.mem_cons_of_mem _ hm, hp⟩
      · rw [collapseRuns, if_neg h12] at hc
        rcases List.mem_cons.mp hc with h | h
        · by_cases h1 : p c1 = true
          · rw [if_pos h1] at h; exact Or.inl h
          · simp only [Bool.not_eq_true] at h1
            rw [if_neg (by simp [h1])] at h
            exact Or.inr ⟨by simp [h], h ▸ h1⟩
        · rcases ih h with h | ⟨hm, hp⟩
          · exact Or.inl h
          · exact Or.inr ⟨List.mem_cons_of_mem _ hm, hp⟩

theorem collapseRuns_eq_self_of_none {p : Nat → Bool} {s : Str}
    (h : ∀ c ∈ s, p c = false) : collapseRuns p s = s := by
  induction s with
  | nil => rfl
  | cons c1 t ih =>
    rw [collapseRuns_cons_not t (h c1 (List.mem_cons_self c1 t))]
    rw [ih fun x hx => h x (List.mem_cons_of_mem c1 hx)]

theorem hasPairOf_collapseRuns (p : Nat → Bool) :
    ∀ s : Str, hasPairOf p (collapseRuns p s) = false := by
  intro s
  induction s with
  | nil => rfl
  | cons c1 t ih =>
    cases t with
    | nil => by_cases h1 : p c1 = true <;> simp [collapseRuns, h1, hasPairOf]
    | cons c2 r =>
      by_cases h12 : (p c1 && p c2) = true
      · rw [collapseRuns, if_pos h12]; exact ih
      · rw [collapseRuns, if_neg h12]
        by_cases h2 : p c2 = true
        · have h1 : p c1 = false := by
            cases h1 : p c1 <;> simp [h1, h2] at h12 ⊢
          rw [if_neg (by simp [h1])]
          rcases hr : collapseRuns p (c2 :: r) with _ | ⟨d, t2⟩
          · exact absurd hr (collapseRuns_ne_nil (by simp))
          · rw [hasPairOf, h1, ← hr, ih]; simp
        · simp only [Bool.not_eq_true] at h2
          rw [collapseRuns_cons_not r h2]
          rw [collapseRuns_cons_not r h2] at ih
          by_cases h1 : p c1 = true
          · rw [if_pos h1, hasPairOf, h2, ih]; simp
          · simp only [Bool.not_eq_true] at h1
            rw [if_neg (by simp [h1]), hasPairOf, h1, ih]; simp

theorem collapseRuns_eq_self {p : Nat → Bool} {s : Str}
    (h1 : ∀ c ∈ s, p c = true → c = 0x20)
    (h2 : hasPairOf p s = false) : collapseRuns p s = s := by
  induction s with
  | nil => rfl
  | cons c1 t ih =>
    cases t with
    | nil =>
      by_cases hc1 : p c1 = true
      · have := h1 c1 (by simp) hc1
        simp [collapseRuns, hc1, this]
      · simp only [Bool.not_eq_true] at hc1
        simp [collapseRuns, hc1]
    | cons c2 r =>
      rw [hasPairOf] at h2
      have h2a : (p c1 && p c2) = false := by
        cases h : (p c1 && p c2) <;> simp [h] at h2 ⊢
      have h2b : hasPairOf p (c2 :: r) = false := by
        cases h : hasPairOf p (c2 :: r) <;> simp [h] at h2 ⊢
      rw [collapseRuns, if_neg (by simp [h2a])]
      have tail := ih (fun x hx hp => h1 x (List.mem_cons_of_mem c1 hx) hp) h2b
      rw [tail]
      by_cases hc1 : p c1 = true
      · rw [if_pos hc1, h1 c1 (by simp) hc1]
      · simp only [Bool.not_eq_true] at hc1
        rw [if_neg (by simp [hc1])]

theorem hasPairOf_tail {p : Nat → Bool} {c : Nat} {t : Str}
    (h : hasPairOf p (c :: t) = false) : hasPairOf p t = false := by
  cases t with
  | nil => rfl
  | cons c2 r =>
    rw [hasPairOf] at h
    cases hx : hasPairOf p (c2 :: r) <;> simp [hx] at h ⊢

theorem hasPairOf_append_left {p : Nat → Bool} :
    ∀ {u v : Str}, hasPairOf p (u ++ v) = false → hasPairOf p u = false := by
  intro u
  induction u with
  | nil => intro v _; rfl
  | cons c1 t ih =>
    intro v h
    cases t with
    | nil => rfl
    | cons c2 r =>
      rw [List.cons_append, List.cons_append, hasPairOf] at h
      have h1 : (p c1 && p c2) = false := by
        cases hx : (p c1 && p c2) <;> simp [hx] at h ⊢
      have h2 : hasPairOf p ((c2 :: r) ++ v) = false := by
        rw [List.cons_append]
        cases hx : hasPairOf p (c2 :: (r ++ v)) <;>
          simp [hx, List.cons_append] at h ⊢
      rw [hasPairOf, h1, ih h2]; rfl

theorem hasPairOf_append_right {p : Nat → Bool} :
    ∀ {u v : Str}, hasPairOf p (u ++ v) = false → hasPairOf p v = false := by
  intro u
  induction u with
  | nil => intro v h; exact h
  | cons c1 t ih =>
    intro v h
    exact ih (hasPairOf_tail (by rw [← List.cons_append]; exact h))

theorem dropWhile_suffix_decomp (p : Nat → Bool) :
    ∀ s : Str, ∃ u, s = u ++ s.dropWhile p := by
  intro s
  induction s with
  | nil => exact ⟨[], rfl⟩
  | cons c t ih =>
    by_cases hc : p c = true
    · rcases ih with ⟨u, hu⟩
      refine ⟨c :: u, ?_⟩
      rw [List.dropWhile_cons_of_pos hc, List.cons_append, ← hu]
    · refine ⟨[], ?_⟩
      simp only [Bool.not_eq_true] at hc
      rw [List.dropWhile_cons_of_neg (by simp [hc]), List.nil_append]

theorem dropWhile_head_not {p : Nat → Bool} :
    ∀ {s c t}, List.dropWhile p s = c :: t → p c = false := by
  intro s
  induction s with
  | nil => intro c t h; simp at h
  | cons c1 t1 ih =>
    intro c t h
    by_cases hc : p c1 = true
    · rw [List.dropWhile_cons_of_pos hc] at h; exact ih h
    · simp only [Bool.not_eq_true] at hc
      rw [List.dropWhile_cons_of_neg (by simp [hc])] at h
      cases h; exact hc

theorem dropWhile_eq_self_of_head {p : Nat → Bool} {s : Str}
    (h : ∀ c, s.head? = some c → p c = false) : List.dropWhile p s = s := by
  cases s with
  | nil => rfl
  | cons c t =>
    rw [List.dropWhile_cons_of_neg (by simp [h c rfl])]

theorem mem_dropWhileRight {p : Nat → Bool} :
    ∀ {s c : _}, c ∈ dropWhileRight p s → c ∈ s := by
  intro s
  induction s with
  | nil => intro c hc; simp [dropWhileRight] at hc
  | cons c1 t ih =>
    intro c hc
    rw [dropWhileRight] at hc
    by_cases he : ((dropWhileRight p t).isEmpty && p c1) = true
    · rw [if_pos he] at hc; simp at hc
    · rw [if_neg he] at hc
      rcases List.mem_cons.mp hc with h | h
      · exact h ▸ List.mem_cons_self c1 t
      · exact List.mem_cons_of_mem c1 (ih h)

theorem dropWhileRight_prefix_decomp (p : Nat → Bool) :
    ∀ s : Str, ∃ v, s = dropWhileRight p s ++ v := by
  intro s
  induction s with
  | nil => exact ⟨[], rfl⟩
  | cons c1 t ih =>
    rw [dropWhileRight]
    by_cases he : ((dropWhileRight p t).isEmpty && p c1) = true
    · exact ⟨c1 :: t, by rw [if_pos he, List.nil_append]⟩
    · rcases ih with ⟨v, hv⟩
      exact ⟨v, by rw [if_neg he, List.cons_append, ← hv]⟩

theorem dropWhileRight_head {p : Nat → Bool} {s c t} :
    dropWhileRight p s = c :: t → s.head? = some c := by
  cases s with
  | nil => intro h; simp [dropWhileRight] at h
  | cons c1 t1 =>
    rw [dropWhileRight]
    by_cases he : ((dropWhileRight p t1).isEmpty && p c1) = true
    · rw [if_pos he]; intro h; cases h
    · rw [if_neg he]; intro h; cases h; rfl

theorem dropWhileRight_getLast_not {p : Nat → Bool} :
    ∀ {s c : _}, (dropWhileRight p s).getLast? = some c → p c = false := by
  intro s
  induction s with
  | nil => intro c h; simp [dropWhileRight] at h
  | cons c1 t ih =>
    intro c h
    rw [dropWhileRight] at h
    by_cases he : ((dropWhileRight p t).isEmpty && p c1) = true
    · rw [if_pos he] at h; simp at h
    · rw [if_neg he] at h
      rcases hr : dropWhileRight p t with _ | ⟨d, t2⟩
      · rw [hr] at h he
        simp only [List.isEmpty_nil, Bool.true_and] at he
        simp only [List.getLast?_singleton, Option.some.injEq] at h
        rw [← h]
        cases hp : p c1
        · rfl
        · exact absurd hp he
      · rw [hr] at h
        rw [List.getLast?_cons_cons] at h
        exact ih (by rw [hr]; exact h)

theorem dropWhileRight_eq_self {p : Nat → Bool} :
    ∀ {s : Str}, (∀ c, s.getLast? = some c → p c = false) →
      dropWhileRight p s = s := by
  intro s
  induction s with
  | nil => intro _; rfl
  | cons c1 t ih =>
    intro h
    rw [dropWhileRight]
    cases t with
    | nil =>
      have := h c1 rfl
      simp [dropWhileRight, this]
    | cons c2 r =>
      have ht : dropWhileRight p (c2 :: r) = c2 :: r :=
        ih fun c hc => h c (by rw [List.getLast?_cons_cons]; exact hc)
      rw [ht]
      simp only [List.isEmpty_cons, Bool.false_and, Bool.false_eq_true,
        if_false]

theorem mem_trimStr {s c : _} (h : c ∈ trimStr s) : c ∈ s := by
  have h1 : c ∈ s.dropWhile isWhite := mem_dropWhileRight h
  rcases dropWhile_suffix_decomp isWhite s with ⟨u, hu⟩
  rw [hu]
  exact List.mem_append_right u h1

theorem trimStr_trimmed (s : Str) : trimmedStr (trimStr s) := by
  constructor
  · intro c hc
    rcases hd : trimStr s with _ | ⟨d, t⟩
    · rw [hd] at hc; cases hc
    · rw [hd] at hc
      cases hc
      have h2 := dropWhileRight_head hd
      rcases hw : s.dropWhile isWhite with _ | ⟨e, t2⟩
      · rw [hw] at h2; cases h2
      · rw [hw] at h2
        cases h2
        exact dropWhile_head_not hw
  · intro c hc
    exact dropWhileRight_getLast_not hc

theorem trimStr_eq_self {s : Str} (h : trimmedStr s) : trimStr s = s := by
  rw [trimStr, dropWhile_eq_self_of_head h.1, dropWhileRight_eq_self h.2]

theorem hasPairOf_trimStr {p : Nat → Bool} {s : Str}
    (h : hasPairOf p s = false) : hasPairOf p (trimStr s) = false := by
  have h1 : hasPairOf p (s.dropWhile isWhite) = false := by
    rcases dropWhile_suffix_decomp isWhite s with ⟨u, hu⟩
    exact hasPairOf_append_right (hu ▸ h)
  rcases dropWhileRight_prefix_decomp isWhite (s.dropWhile isWhite) with ⟨v, hv⟩
  exact hasPairOf_append_left (hv ▸ h1)

/-! Character-subset transport through the normalization steps: every
character of a step's output is a half-width space or a character of the
step's input. -/

theorem mem_stepZeroWidth {b s c} (h : c ∈ stepZeroWidth b s) :
    c = 0x20 ∨ c ∈ s := by
  cases b with
  | false => exact Or.inr h
  | true => exact Or.inr (List.mem_of_mem_filter h)

theorem mem_stepFullWidth {b s c} (h : c ∈ stepFullWidth b s) :
    c = 0x20 ∨ c ∈ s := by
  cases b with
  | false => exact Or.inr h
  | true =>
    rcases List.mem_map.mp h with ⟨d, hd, he⟩
    by_cases h3 : (d == 0x3000) = true
    · rw [if_pos h3] at he; exact Or.inl he.symm
    · rw [if_neg h3] at he; exact Or.inr (he ▸ hd)

theorem mem_stepLineBreaks {b s c} (h : c ∈ stepLineBreaks b s) :
    c = 0x20 ∨ c ∈ s := by
  cases b with
  | false => exact Or.inr h
  | true =>
    rcases mem_collapseRuns h with h1 | ⟨h1, _⟩
    · exact Or.inl h1
    · exact Or.inr h1

theorem mem_stepCollapse {b s c} (h : c ∈ stepCollapse b s) :
    c = 0x20 ∨ c ∈ s := by
  cases b with
  | false => exact Or.inr h
  | true =>
    rcases mem_collapseRuns h with h1 | ⟨h1, _⟩
    · exact Or.inl h1
    · exact Or.inr h1

theorem mem_stepTrim {b s c} (h : c ∈ stepTrim b s) :
    c = 0x20 ∨ c ∈ s := by
  cases b with
  | false => exact Or.inr h
  | true => exact Or.inr (mem_trimStr h)

theorem no_q_transport {q : Nat → Bool} {s s2 : Str}
    (hq : q 0x20 = false) (h : ∀ c ∈ s, q c = false)
    (hsub : ∀ c ∈ s2, c = 0x20 ∨ c ∈ s) : ∀ c ∈ s2, q c = false := by
  intro c hc
  rcases hsub c hc with h1 | h1
  · rw [h1]; exact hq
  · exact h c h1

theorem normalize_noZeroWidth {config : NormalizeConfig} {s : Str}
    (hz : config.removeZeroWidth = true) :
    ∀ c ∈ normalizeText s config, isZeroWidth c = false := by
  intro c hc
  simp only [normalizeText] at hc
  rcases mem_stepTrim hc with h | hc2
  · rw [h]; decide
  rcases mem_stepCollapse hc2 with h | hc3
  · rw [h]; decide
  rcases mem_stepLineBreaks hc3 with h | hc4
  · rw [h]; decide
  rcases mem_stepFullWidth hc4 with h | hc5
  · rw [h]; decide
  rw [stepZeroWidth, hz, if_pos rfl] at hc5
  have := List.of_mem_filter hc5
  simpa using this

theorem normalize_noFullWidth {config : NormalizeConfig} {s : Str}
    (hf : config.convertFullWidth = true) :
    ∀ c ∈ normalizeText s config, (c == 0x3000) = false := by
  intro c hc
  simp only [normalizeText] at hc
  rcases mem_stepTrim hc with h | hc2
  · rw [h]; decide
  rcases mem_stepCollapse hc2 with h | hc3
  · rw [h]; decide
  rcases mem_stepLineBreaks hc3 with h | hc4
  · rw [h]; decide
  rw [stepFullWidth, hf, if_pos rfl] at hc4
  rcases List.mem_map.mp hc4 with ⟨d, _, he⟩
  by_cases h3 : (d == 0x3000) = true
  · rw [if_pos h3] at he; rw [← he]; decide
  · rw [if_neg h3] at he; rw [← he]; simpa using h3

theorem normalize_noLineBreak {config : NormalizeConfig} {s : Str}
    (hb : config.removeLineBreaks = true) :
    ∀ c ∈ normalizeText s config, isLineBreak c = false := by
  intro c hc
  simp only [normalizeText] at hc
  rcases mem_stepTrim hc with h | hc2
  · rw [h]; decide
  rcases mem_stepCollapse hc2 with h | hc3
  · rw [h]; decide
  rw [stepLineBreaks, hb, if_pos rfl] at hc3
  rcases mem_collapseRuns hc3 with h1 | ⟨_, h1⟩
  · rw [h1]; decide
  · exact h1

theorem normalize_collapse_inv {config : NormalizeConfig} {s : Str}
    (hw : config.collapseWhitespace = true) :
    (∀ c ∈ normalizeText s config, isWhite c = true → c = 0x20) ∧
      hasPairOf isWhite (normalizeText s config) = false := by
  have hstep : stepCollapse config.collapseWhitespace
      (stepLineBreaks config.removeLineBreaks
        (stepFullWidth config.convertFullWidth
          (stepZeroWidth config.removeZeroWidth s))) =
      collapseRuns isWhite (stepLineBreaks config.removeLineBreaks
        (stepFullWidth config.convertFullWidth
          (stepZeroWidth config.removeZeroWidth s))) := by
    rw [stepCollapse, hw, if_pos rfl]
  constructor
  · intro c hc hwhite
    simp only [normalizeText] at hc
    rw [hstep] at hc
    rcases mem_stepTrim hc with h1 | h1
    · exact h1
    · rcases mem_collapseRuns h1 with h2 | ⟨_, h2⟩
      · exact h2
      · rw [hwhite] at h2; cases h2
  · have h1 : hasPairOf isWhite (collapseRuns isWhite
        (stepLineBreaks config.removeLineBreaks
          (stepFullWidth config.convertFullWidth
            (stepZeroWidth config.removeZeroWidth s)))) = false :=
      hasPairOf_collapseRuns isWhite _
    show hasPairOf isWhite (normalizeText s config) = false
    simp only [normalizeText, hstep]
    cases ht : config.trim
    · simpa [stepTrim] using h1
    · simp only [stepTrim, if_pos rfl]
      exact hasPairOf_trimStr h1

theorem normalize_trimmed {config : NormalizeConfig} {s : Str}
    (ht : config.trim = true) : trimmedStr (normalizeText s config) := by
  simp only [normalizeText, stepTrim, ht, if_pos rfl]
  exact trimStr_trimmed _

/-- C8: `normalizeText` is idempotent: for every string and every
normalization configuration (each of the five steps independently toggled),
applying `normalizeText` twice gives the same result as applying it once. -/
theorem claim_C8_normalizeText_idempotent (config : NormalizeConfig) (s : Str) :
    normalizeText (normalizeText s config) config = normalizeText s config := by
  have e1 : stepZeroWidth config.removeZeroWidth (normalizeText s config) =
      normalizeText s config := by
    cases hz : config.removeZeroWidth
    · rw [stepZeroWidth, if_neg (by simp)]
    · rw [stepZeroWidth, if_pos rfl]
      exact List.filter_eq_self.mpr fun c hc => by
        simp [normalize_noZeroWidth hz c hc]
  have e2 : stepFullWidth config.convertFullWidth (normalizeText s config) =
      normalizeText s config := by
    cases hf : config.convertFullWidth
    · rw [stepFullWidth, if_neg (by simp)]
    · rw [stepFullWidth, if_pos rfl]
      exact list_map_eq_self fun c hc => by
        rw [if_neg (by simp [normalize_noFullWidth hf c hc])]
  have e3 : stepLineBreaks config.removeLineBreaks (normalizeText s config) =
      normalizeText s config := by
    cases hb : config.removeLineBreaks
    · rw [stepLineBreaks, if_neg (by simp)]
    · rw [stepLineBreaks, if_pos rfl]
      exact collapseRuns_eq_self_of_none (normalize_noLineBreak hb)
  have e4 : stepCollapse config.collapseWhitespace (normalizeText s config) =
      normalizeText s config := by
    cases hw : config.collapseWhitespace
    · rw [stepCollapse, if_neg (by simp)]
    · rw [stepCollapse, if_pos rfl]
      exact collapseRuns_eq_self (normalize_collapse_inv hw).1
        (normalize_collapse_inv hw).2
  have e5 : stepTrim config.trim (normalizeText s config) =
      normalizeText s config := by
    cases ht : config.trim
    · rw [stepTrim, if_neg (by simp)]
    · rw [stepTrim, if_pos rfl]
      exact trimStr_eq_self (normalize_trimmed ht)
  conv_lhs => rw [normalizeText]
  rw [e1, e2, e3, e4, e5]

/-! ### NodeFingerprintStore: claim C4 -/

/-- C4: `isProcessed(node, level, mode)` is true exactly when the store
holds an entry for the node whose stored fingerprint equals
`hash(normalize(textContent)):level:mode` recomputed from the node's current
text content (so it is false for a never-marked node); directly after
`markAsProcessed(node, level, mode)` — which replaces any prior association
for the node by the freshly computed entry — `isProcessed` is true as long
as the node's text content is unchanged. -/
theorem claim_C4_isProcessed_iff_current_fingerprint (m : FingerprintMap)
    (dom : Nat → Str) (now node : Nat) (userLevel : Str) (mode : Mode) :
    (isProcessed m dom node userLevel mode = true ↔
      ∃ info, m node = some info ∧
        info.fingerprint =
          generateNodeFingerprint
            (hashText (normalizeText (dom node) DEFAULT_CONFIG)) userLevel mode) ∧
    markAsProcessed m dom now node userLevel mode node =
      some (mkNodeFingerprintInfo dom now node userLevel mode) ∧
    isProcessed (markAsProcessed m dom now node userLevel mode) dom node
      userLevel mode = true := by
  refine ⟨?_, by simp [markAsProcessed], ?_⟩
  · rw [isProcessed]
    cases h : m node with
    | none =>
      simp only [h]
      constructor
      · intro hx; cases hx
      · rintro ⟨info, hinfo, _⟩; cases hinfo
    | some stored =>
      simp only [h]
      constructor
      · intro hx
        exact ⟨stored, rfl, beq_iff_eq.mp hx⟩
      · rintro ⟨info, hinfo, heq⟩
        cases hinfo
        exact beq_iff_eq.mpr heq
  · rw [isProcessed, markAsProcessed]
    simp only [if_pos rfl]
    rw [mkNodeFingerprintInfo]
    exact beq_iff_eq.mpr rfl

/-! ### TextNormalizer: claims C8 and C9 -/

/-- C9: the code evaluated at the failing input "a\tb" (code units
[97, 9, 98]): `needsNormalization` reports false, yet `normalizeText` with
the default configuration rewrites the string to "a b" — the predicate does
not detect a lone interior non-space whitespace character that the collapse
step rewrites to a space, contradicting its own documented contract of
reporting exactly whether normalization would change the string. -/
theorem claim_C9_needsNormalization_misses_tab :
    needsNormalization [97, 9, 98] = false ∧
    normalizeText [97, 9, 98] DEFAULT_CONFIG = [97, 32, 98] ∧
    normalizeText [97, 9, 98] DEFAULT_CONFIG ≠ [97, 9, 98] := by
  refine ⟨by decide, by decide, by decide⟩

/-! ### TextPlanner: claim C1 -/

theorem nodeDataLookup_isSome_of_mem {textNodes : List TextNodeData} {n : Nat}
    (h : n ∈ textNodes.map fun d => d.node) :
    (nodeDataLookup textNodes n).isSome := by
  rcases List.mem_map.mp h with ⟨d, hd, hdn⟩
  rw [nodeDataLookup, List.find?_isSome]
  exact ⟨d, List.mem_reverse.mpr hd, by simp [hdn]⟩

theorem buildCandidates_length_split (textNodes : List TextNodeData)
    (cache : ContentCache) (userLevel : Str) :
    ∀ nodes : List Nat, (∀ n ∈ nodes, (nodeDataLookup textNodes n).isSome) →
      (buildCandidates textNodes cache userLevel nodes).2.1.length +
        (buildCandidates textNodes cache userLevel nodes).2.2.1.length =
        nodes.length := by
  intro nodes
  induction nodes with
  | nil => intro _; rfl
  | cons n rest ih =>
    intro h
    have hrest := ih fun x hx => h x (List.mem_cons_of_mem n hx)
    have hn := h n (List.mem_cons_self n rest)
    rcases hnd : nodeDataLookup textNodes n with _ | nodeData
    · rw [hnd] at hn; cases hn
    · simp only [buildCandidates, hnd]
      rcases hc : contentGetByHash cache
          (hashText (normalizeText nodeData.text DEFAULT_CONFIG)) userLevel with
        _ | cached
      · simp only [List.length_cons]
        omega
      · by_cases hne : 0 < cached.length
        · simp only [if_pos hne, List.length_cons]
          omega
        · simp only [if_neg hne, List.length_cons]
          omega

theorem batchDedupGo_length :
    ∀ (cands : List TextCandidate) (mapAcc : List (Str × List TextCandidate))
      (seen uniq : List Str),
      (mapAcc.map fun p => p.1) = seen → uniq.length = seen.length →
      (batchDedupGo cands mapAcc seen uniq).1.length =
        (batchDedupGo cands mapAcc seen uniq).2.length := by
  intro cands
  induction cands with
  | nil =>
    intro mapAcc seen uniq hkeys hlen
    simp only [batchDedupGo]
    rw [hlen, ← hkeys, List.length_map]
  | cons c rest ih =>
    intro mapAcc seen uniq hkeys hlen
    by_cases hseen : seen.contains c.textHash = true
    · have hmem : c.textHash ∈ seen := List.elem_iff.mp hseen
      have hhas : jsMapHas mapAcc c.textHash = true := by
        rw [jsMapHas, List.find?_isSome]
        rw [← hkeys] at hmem
        rcases List.mem_map.mp hmem with ⟨p, hp, hp1⟩
        exact ⟨p, hp, by simp [hp1]⟩
      simp only [batchDedupGo]
      rw [if_pos hseen, if_pos hhas]
      refine ih _ seen uniq ?_ hlen
      rw [List.map_map, ← hkeys]
      refine List.map_congr_left fun p _ => ?_
      by_cases hp : (p.1 == c.textHash) = true
      · simp [Function.comp, hp]
      · simp [Function.comp, hp]
    · have hnmem : c.textHash ∉ seen := fun hm => hseen (List.elem_iff.mpr hm)
      have hhas : jsMapHas mapAcc c.textHash = false := by
        rcases hf : mapAcc.find? fun p => p.1 == c.textHash with _ | p
        · rw [jsMapHas, hf]; rfl
        · exfalso
          have hp := List.find?_some hf
          have hpm := List.mem_of_find?_eq_some hf
          apply hnmem
          rw [← hkeys]
          exact List.mem_map.mpr ⟨p, hpm, beq_iff_eq.mp hp⟩
      have hseen2 : seen.contains c.textHash = false := by
        cases hq : seen.contains c.textHash
        · rfl
        · exact absurd hq hseen
      simp only [batchDedupGo]
      rw [if_neg (by rw [hseen2]; exact Bool.false_ne_true),
        if_neg (by rw [hhas]; exact Bool.false_ne_true)]
      refine ih _ (seen ++ [c.textHash]) (uniq ++ [c.normalizedText]) ?_ ?_
      · rw [List.map_append, hkeys]
        rfl
      · simp [hlen]

/-- C1: a freshly created plan satisfies the plan invariants:
`stats.total = stats.fingerprintFiltered + toApplyFromCache.length +
toSend.length` and `uniqueTexts.length = stats.unique = textHashMap.size`,
for every array of text nodes, every fingerprint-store and cache state and
every level — so `validatePlan` holds of every freshly created plan. -/
theorem claim_C1_createTranslationPlan_invariants (textNodes : List TextNodeData)
    (dom : Nat → Str) (fp : FingerprintMap) (cache : ContentCache)
    (userLevel : Str) :
    (createTranslationPlan textNodes dom fp cache userLevel).stats.total =
      (createTranslationPlan textNodes dom fp cache userLevel).stats.fingerprintFiltered +
      (createTranslationPlan textNodes dom fp cache userLevel).toApplyFromCache.length +
      (createTranslationPlan textNodes dom fp cache userLevel).toSend.length ∧
    (createTranslationPlan textNodes dom fp cache userLevel).uniqueTexts.length =
      (createTranslationPlan textNodes dom fp cache userLevel).stats.unique ∧
    (createTranslationPlan textNodes dom fp cache userLevel).stats.unique =
      (createTranslationPlan textNodes dom fp cache userLevel).textHashMap.length ∧
    validatePlan (createTranslationPlan textNodes dom fp cache userLevel) = true := by
  have hsub : ∀ n ∈ filterUnprocessed fp dom (textNodes.map fun d => d.node)
      userLevel .original, (nodeDataLookup textNodes n).isSome := by
    intro n hn
    exact nodeDataLookup_isSome_of_mem (List.mem_of_mem_filter hn)
  have hsplit := buildCandidates_length_split textNodes cache userLevel
    (filterUnprocessed fp dom (textNodes.map fun d => d.node) userLevel .original)
    hsub
  have hle : (filterUnprocessed fp dom (textNodes.map fun d => d.node)
      userLevel .original).length ≤ textNodes.length := by
    rw [filterUnprocessed]
    calc ((textNodes.map fun d => d.node).filter _).length
        ≤ (textNodes.map fun d => d.node).length := List.length_filter_le _ _
      _ = textNodes.length := List.length_map _ _
  have hdedup := batchDedupGo_length
    (buildCandidates textNodes cache userLevel
      (filterUnprocessed fp dom (textNodes.map fun d => d.node) userLevel
        .original)).2.2.1 [] [] [] rfl rfl
  have h1 : (createTranslationPlan textNodes dom fp cache userLevel).stats.total =
      (createTranslationPlan textNodes dom fp cache userLevel).stats.fingerprintFiltered +
      (createTranslationPlan textNodes dom fp cache userLevel).toApplyFromCache.length +
      (createTranslationPlan textNodes dom fp cache userLevel).toSend.length := by
    simp only [createTranslationPlan]
    omega
  have h2 : (createTranslationPlan textNodes dom fp cache userLevel).uniqueTexts.length =
      (createTranslationPlan textNodes dom fp cache userLevel).stats.unique := by
    simp only [createTranslationPlan]
  have h3 : (createTranslationPlan textNodes dom fp cache userLevel).stats.unique =
      (createTranslationPlan textNodes dom fp cache userLevel).textHashMap.length := by
    simp only [createTranslationPlan]
    exact hdedup
  refine ⟨h1, h2, h3, ?_⟩
  rw [validatePlan]
  rw [if_neg (by simp [h1]), if_neg (by simp [h2]),
    if_neg (by simp [h3.symm.trans h2.symm])]

/-! ### TextPlanner: claim C2 -/

theorem batchDedupGo_buckets_ne_nil :
    ∀ (cands : List TextCandidate) (mapAcc : List (Str × List TextCandidate))
      (seen uniq : List Str),
      (∀ p ∈ mapAcc, p.2 ≠ []) →
      ∀ p ∈ (batchDedupGo cands mapAcc seen uniq).2, p.2 ≠ [] := by
  intro cands
  induction cands with
  | nil =>
    intro mapAcc seen uniq h
    simpa [batchDedupGo] using h
  | cons c rest ih =>
    intro mapAcc seen uniq h
    have hmap2 : ∀ p ∈ (if jsMapHas mapAcc c.textHash then
        mapAcc.map fun p => if p.1 == c.textHash then (p.1, p.2 ++ [c]) else p
        else mapAcc ++ [(c.textHash, [c])]), p.2 ≠ ([] : List TextCandidate) := by
      by_cases hhas : jsMapHas mapAcc c.textHash = true
      · rw [if_pos hhas]
        intro p hp
        rcases List.mem_map.mp hp with ⟨q, hq, hqe⟩
        by_cases hq1 : (q.1 == c.textHash) = true
        · rw [if_pos hq1] at hqe; rw [← hqe]; simp
        · rw [if_neg hq1] at hqe; rw [← hqe]; exact h q hq
      · rw [if_neg hhas]
        intro p hp
        rcases List.mem_append.mp hp with hp | hp
        · exact h p hp
        · simp only [List.mem_singleton] at hp
          rw [hp]; simp
    simp only [batchDedupGo]
    by_cases hseen : seen.contains c.textHash = true
    · rw [if_pos hseen]; exact ih _ _ _ hmap2
    · rw [if_neg hseen]; exact ih _ _ _ hmap2

theorem mergeGo_ok (t2t : List (Str × Str)) :
    ∀ (m : List (Str × List TextCandidate)) (acc : List (Str × Str)),
      (∀ p ∈ m, p.2 ≠ []) → ∃ r, mergeGo t2t m acc = .ok r := by
  intro m
  induction m with
  | nil => intro acc _; exact ⟨acc, rfl⟩
  | cons hd rest ih =>
    intro acc h
    rcases hd with ⟨hash, cands⟩
    rcases cands with _ | ⟨c0, cs⟩
    · exact absurd rfl (h (hash, []) (by simp))
    · simp only [mergeGo, List.head?_cons]
      rcases hget : jsMapGet t2t c0.normalizedText with _ | t
      · exact ih acc fun p hp => h p (List.mem_cons_of_mem _ hp)
      · show ∃ r, (if 0 < t.length then mergeGo t2t rest (jsMapSet acc hash t)
          else mergeGo t2t rest acc) = Except.ok r
        by_cases hlen : 0 < t.length
        · rw [if_pos hlen]
          exact ih _ fun p hp => h p (List.mem_cons_of_mem _ hp)
        · rw [if_neg hlen]
          exact ih acc fun p hp => h p (List.mem_cons_of_mem _ hp)

/-- C2: `mergeApiResults(plan, results)` on a freshly created plan throws
exactly when `results.length` differs from `plan.uniqueTexts.length`; when
it throws, no hash-to-translation map is produced (the error value carries
none), so zero translations are applied for the cycle. -/
theorem claim_C2_mergeApiResults_throws_iff_length_mismatch
    (textNodes : List TextNodeData) (dom : Nat → Str) (fp : FingerprintMap)
    (cache : ContentCache) (userLevel : Str) (apiResults : List Str) :
    mergeApiResults (createTranslationPlan textNodes dom fp cache userLevel)
        apiResults = Except.error () ↔
      apiResults.length ≠
        (createTranslationPlan textNodes dom fp cache userLevel).uniqueTexts.length := by
  constructor
  · intro herr
    by_contra hlen
    rw [mergeApiResults, if_neg (fun hne => hne hlen)] at herr
    have hne : ∀ p ∈ (createTranslationPlan textNodes dom fp cache
        userLevel).textHashMap, p.2 ≠ [] := by
      simp only [createTranslationPlan]
      exact batchDedupGo_buckets_ne_nil _ [] [] [] (by simp)
    rcases mergeGo_ok _ _ [] hne with ⟨r, hr⟩
    rw [hr] at herr
    cases herr
  · intro hne
    rw [mergeApiResults, if_pos hne]

/-! ### Content cache addressing: claim C6 -/

theorem buildCandidates_hit (textNodes : List TextNodeData)
    (cache : ContentCache) (userLevel h v : Str) (hv : 0 < v.length)
    (hc : contentGetByHash cache h userLevel = some v) :
    ∀ nodes : List Nat,
      (∀ cand ∈ (buildCandidates textNodes cache userLevel nodes).2.2.1,
        cand.textHash ≠ h) ∧
      (∀ p ∈ (buildCandidates textNodes cache userLevel nodes).2.1,
        p.1.textHash = h → p.2 = v) := by
  intro nodes
  induction nodes with
  | nil => exact ⟨by simp [buildCandidates], by simp [buildCandidates]⟩
  | cons n rest ih =>
    rcases hnd : nodeDataLookup textNodes n with _ | nodeData
    · simpa only [buildCandidates, hnd] using ih
    · by_cases hth : hashText (normalizeText nodeData.text DEFAULT_CONFIG) = h
      · have hx : contentGetByHash cache
            (hashText (normalizeText nodeData.text DEFAULT_CONFIG)) userLevel =
            some v := by rw [hth]; exact hc
        simp only [buildCandidates, hnd, hx]
        rw [if_pos hv]
        constructor
        · exact ih.1
        · intro p hp
          rcases List.mem_cons.mp hp with hp | hp
          · rw [hp]; intro _; rfl
          · exact ih.2 p hp
      · rcases hget : contentGetByHash cache
            (hashText (normalizeText nodeData.text DEFAULT_CONFIG)) userLevel with
          _ | cached
        · simp only [buildCandidates, hnd, hget]
          constructor
          · intro cand hcand
            rcases List.mem_cons.mp hcand with hcand | hcand
            · rw [hcand]; exact hth
            · exact ih.1 cand hcand
          · exact ih.2
        · by_cases hlen : 0 < cached.length
          · simp only [buildCandidates, hnd, hget]
            rw [if_pos hlen]
            constructor
            · exact ih.1
            · intro p hp
              rcases List.mem_cons.mp hp with hp | hp
              · rw [hp]; intro hcontra; exact absurd hcontra hth
              · exact ih.2 p hp
          · simp only [buildCandidates, hnd, hget]
            rw [if_neg hlen]
            constructor
            · intro cand hcand
              rcases List.mem_cons.mp hcand with hcand | hcand
              · rw [hcand]; exact hth
              · exact ih.1 cand hcand
            · exact ih.2

/-- C6: the content cache is addressed by (content hash, proficiency
level): once a non-empty value v is stored under (h, level), a planning pass
at that level never routes a candidate whose textHash is h into `toSend` —
every such candidate becomes a Layer-2 cache hit paired with exactly v in
`toApplyFromCache`. -/
theorem claim_C6_cache_hit_routes_to_apply (textNodes : List TextNodeData)
    (dom : Nat → Str) (fp : FingerprintMap) (cache : ContentCache)
    (userLevel h v : Str) (hv : 0 < v.length) :
    (∀ cand ∈ (createTranslationPlan textNodes dom fp
        (contentSetByHash cache h userLevel v) userLevel).toSend,
      cand.textHash ≠ h) ∧
    (∀ p ∈ (createTranslationPlan textNodes dom fp
        (contentSetByHash cache h userLevel v) userLevel).toApplyFromCache,
      p.1.textHash = h → p.2 = v) := by
  have hc : contentGetByHash (contentSetByHash cache h userLevel v) h
      userLevel = some v := by
    rw [contentGetByHash, contentSetByHash]
    exact if_pos ⟨rfl, rfl⟩
  simp only [createTranslationPlan]
  exact buildCandidates_hit textNodes _ userLevel h v hv hc _

/-- Witness for C6 at a concrete input: one node whose text is "a",
value "X" stored under the node's own hash at level "A1". -/
theorem claim_C6_cache_hit_routes_to_apply_witness :
    0 < ([88] : Str).length ∧
    ((∀ cand ∈ (createTranslationPlan
        [{ id := [49], text := [97], path := [], element := 0, node := 1 }]
        (fun _ => []) (fun _ => none)
        (contentSetByHash (fun _ _ => none) (hashText [97]) [65, 49] [88])
        [65, 49]).toSend,
      cand.textHash ≠ hashText [97]) ∧
    (∀ p ∈ (createTranslationPlan
        [{ id := [49], text := [97], path := [], element := 0, node := 1 }]
        (fun _ => []) (fun _ => none)
        (contentSetByHash (fun _ _ => none) (hashText [97]) [65, 49] [88])
        [65, 49]).toApplyFromCache,
      p.1.textHash = hashText [97] → p.2 = [88])) :=
  ⟨by decide,
    claim_C6_cache_hit_routes_to_apply
      [{ id := [49], text := [97], path := [], element := 0, node := 1 }]
      (fun _ => []) (fun _ => none) (fun _ _ => none)
      [65, 49] (hashText [97]) [88] (by decide)⟩

/-! ### TextPlanner: claim C3 -/

theorem bool_eq_false {b : Bool} (h : ¬(b = true)) : b = false := by
  cases b
  · rfl
  · exact absurd rfl h

theorem jsMapGet_set_same {α : Type} (m : List (Str × α)) (k : Str) (v : α) :
    jsMapGet (jsMapSet m k v) k = some v := by
  by_cases hhas : jsMapHas m k = true
  · rw [jsMapSet, if_pos hhas]
    rw [jsMapHas, List.find?_isSome] at hhas
    rcases hhas with ⟨p, hp, hpk⟩
    rw [jsMapGet]
    induction m with
    | nil => cases hp
    | cons q rest ih =>
      by_cases hq1 : (q.1 == k) = true
      · rw [List.map_cons, if_pos hq1]
        simp only [List.find?_cons, hq1]
        rfl
      · rw [List.map_cons, if_neg hq1]
        simp only [List.find?_cons, bool_eq_false hq1]
        apply ih
        rcases List.mem_cons.mp hp with hq | hq
        · exfalso
          rw [hq] at hpk
          exact hq1 hpk
        · exact hq
  · rw [jsMapSet, if_neg hhas, jsMapGet, List.find?_append]
    have hnone : m.find? (fun p => p.1 == k) = none := by
      rcases hf : m.find? fun p => p.1 == k with _ | p
      · exact hf
      · exact absurd (by rw [jsMapHas, hf]; rfl) hhas
    rw [hnone]
    simp [List.find?_cons]

theorem jsMapGet_set_ne {α : Type} (m : List (Str × α)) (k k2 : Str) (v : α)
    (hne : ¬(k2 = k)) : jsMapGet (jsMapSet m k v) k2 = jsMapGet m k2 := by
  have hne2 : ∀ k1 : Str, (k1 == k) = true → (k1 == k2) = false := by
    intro k1 h1
    cases hx : (k1 == k2)
    · rfl
    · exfalso
      apply hne
      rw [← beq_iff_eq.mp hx]
      exact beq_iff_eq.mp h1
  by_cases hhas : jsMapHas m k = true
  · rw [jsMapSet, if_pos hhas, jsMapGet, jsMapGet]
    clear hhas
    induction m with
    | nil => rfl
    | cons q rest ih =>
      by_cases hq1 : (q.1 == k) = true
      · rw [List.map_cons, if_pos hq1]
        simp only [List.find?_cons, hne2 q.1 hq1]
        exact ih
      · rw [List.map_cons, if_neg hq1]
        by_cases hq2 : (q.1 == k2) = true
        · simp only [List.find?_cons, hq2]
        · simp only [List.find?_cons, bool_eq_false hq2]
          exact ih
  · rw [jsMapSet, if_neg hhas, jsMapGet, jsMapGet, List.find?_append]
    rcases hf : m.find? fun p => p.1 == k2 with _ | p
    · rw [hf]
      have hkk2 : (k == k2) = false := by
        cases hx : (k == k2)
        · rfl
        · exact absurd (beq_iff_eq.mp hx).symm hne
      simp [List.find?_cons, hkk2]
    · rw [hf]
      rfl

theorem foldSet_preserve {α : Type} :
    ∀ (pairs : List (Str × α)) (acc : List (Str × α)) (k : Str),
      k ∉ (pairs.map fun p => p.1) →
      jsMapGet (pairs.foldl (fun m p => jsMapSet m p.1 p.2) acc) k =
        jsMapGet acc k := by
  intro pairs
  induction pairs with
  | nil => intro acc k _; rfl
  | cons w ws ihw =>
    intro acc k hk
    simp only [List.map_cons, List.mem_cons] at hk
    push_neg at hk
    rw [List.foldl_cons, ihw _ k hk.2]
    exact jsMapGet_set_ne acc w.1 k w.2 hk.1

theorem foldSet_get {α : Type} :
    ∀ (pairs : List (Str × α)) (acc : List (Str × α)) (k : Str) (v : α),
      (pairs.map fun p => p.1).Nodup → (k, v) ∈ pairs →
      jsMapGet (pairs.foldl (fun m p => jsMapSet m p.1 p.2) acc) k = some v := by
  intro pairs
  induction pairs with
  | nil => intro acc k v _ hm; cases hm
  | cons q rest ih =>
    intro acc k v hnd hm
    simp only [List.map_cons, List.nodup_cons] at hnd
    rcases List.mem_cons.mp hm with hm | hm
    · cases hm
      rw [List.foldl_cons, foldSet_preserve rest _ k hnd.1,
        jsMapGet_set_same]
    · rw [List.foldl_cons]
      exact ih _ k v hnd.2 hm

theorem mergeGo_preserve (t2t : List (Str × Str)) :
    ∀ (m : List (Str × List TextCandidate)) (acc M : List (Str × Str)),
      mergeGo t2t m acc = .ok M →
      ∀ k, k ∉ (m.map fun p => p.1) → jsMapGet M k = jsMapGet acc k := by
  intro m
  induction m with
  | nil =>
    intro acc M h k _
    cases h
    rfl
  | cons hd rest ih =>
    intro acc M h k hk
    rcases hd with ⟨hash, cands⟩
    simp only [List.map_cons, List.mem_cons] at hk
    push_neg at hk
    rcases cands with _ | ⟨c0, cs⟩
    · rw [mergeGo] at h; cases h
    · simp only [mergeGo, List.head?_cons] at h
      rcases hget : jsMapGet t2t c0.normalizedText with _ | t
      · rw [hget] at h
        exact ih acc M h k hk.2
      · rw [hget] at h
        simp only [] at h
        by_cases hlen : 0 < t.length
        · rw [if_pos hlen] at h
          rw [ih _ M h k hk.2]
          exact jsMapGet_set_ne acc hash k t hk.1
        · rw [if_neg hlen] at h
          exact ih acc M h k hk.2

theorem mergeGo_lookup (t2t : List (Str × Str)) :
    ∀ (m : List (Str × List TextCandidate)) (acc M : List (Str × Str)),
      (m.map fun p => p.1).Nodup →
      (∀ k ∈ m.map fun p => p.1, jsMapGet acc k = none) →
      mergeGo t2t m acc = .ok M →
      ∀ hash bucket c0, (hash, bucket) ∈ m → bucket.head? = some c0 →
        jsMapGet M hash =
          match jsMapGet t2t c0.normalizedText with
          | some r => if 0 < r.length then some r else none
          | none => none := by
  intro m
  induction m with
  | nil =>
    intro acc M _ _ _ hash bucket c0 hm
    cases hm
  | cons hd rest ih =>
    intro acc M hnd hacc h hash bucket c0 hm hc0
    rcases hd with ⟨hash1, cands⟩
    simp only [List.map_cons, List.nodup_cons] at hnd
    rcases cands with _ | ⟨d0, ds⟩
    · rw [mergeGo] at h; cases h
    · simp only [mergeGo, List.head?_cons] at h
      rcases List.mem_cons.mp hm with hm | hm
      · have hhash : hash = hash1 := by cases hm; rfl
        have hc0d : c0 = d0 := by
          have hbucket : bucket = d0 :: ds := by cases hm; rfl
          rw [hbucket] at hc0
          cases hc0; rfl
        rcases hget : jsMapGet t2t d0.normalizedText with _ | t
        · rw [hget] at h
          rw [hc0d, hget]
          rw [mergeGo_preserve t2t rest acc M h hash (by rw [hhash]; exact hnd.1)]
          exact hacc hash (by rw [hhash]; exact List.mem_cons_self _ _)
        · rw [hget] at h
          simp only [] at h
          rw [hc0d, hget]
          simp only []
          by_cases hlen : 0 < t.length
          · rw [if_pos hlen] at h
            rw [if_pos hlen]
            rw [mergeGo_preserve t2t rest _ M h hash
              (by rw [hhash]; exact hnd.1)]
            rw [hhash]
            exact jsMapGet_set_same acc hash1 t
          · rw [if_neg hlen] at h
            rw [if_neg hlen]
            rw [mergeGo_preserve t2t rest acc M h hash
              (by rw [hhash]; exact hnd.1)]
            exact hacc hash (by rw [hhash]; exact List.mem_cons_self _ _)
      · have hmem : hash ∈ rest.map fun p => p.1 :=
          List.mem_map.mpr ⟨(hash, bucket), hm, rfl⟩
        rcases hget : jsMapGet t2t d0.normalizedText with _ | t
        · rw [hget] at h
          exact ih acc M hnd.2
            (fun k hk => hacc k (List.mem_cons_of_mem _ hk)) h hash bucket c0 hm hc0
        · rw [hget] at h
          simp only [] at h
          by_cases hlen : 0 < t.length
          · rw [if_pos hlen] at h
            refine ih _ M hnd.2 ?_ h hash bucket c0 hm hc0
            intro k hk
            have hkne : ¬(k = hash1) := by
              intro he
              exact hnd.1 (he ▸ hk)
            rw [jsMapGet_set_ne acc hash1 k t hkne]
            exact hacc k (List.mem_cons_of_mem _ hk)
          · rw [if_neg hlen] at h
            exact ih acc M hnd.2
              (fun k hk => hacc k (List.mem_cons_of_mem _ hk)) h hash bucket c0 hm hc0

theorem jsMapHas_of_keys {α : Type} {m : List (Str × α)} {seen : List Str}
    {k : Str} (hkeys : (m.map fun p => p.1) = seen)
    (h : k ∈ seen) : jsMapHas m k = true := by
  rw [jsMapHas, List.find?_isSome]
  rw [← hkeys] at h
  rcases List.mem_map.mp h with ⟨p, hp, hp1⟩
  exact ⟨p, hp, by simp [hp1]⟩

theorem jsMapHas_false_of_keys {α : Type} {m : List (Str × α)} {seen : List Str}
    {k : Str} (hkeys : (m.map fun p => p.1) = seen)
    (h : k ∉ seen) : jsMapHas m k = false := by
  rcases hf : m.find? fun p => p.1 == k with _ | p
  · rw [jsMapHas, hf]; rfl
  · exfalso
    apply h
    rw [← hkeys]
    have hp1 := List.find?_some hf
    exact List.mem_map.mpr ⟨p, List.mem_of_find?_eq_some hf,
      beq_iff_eq.mp hp1⟩

theorem update_keys {α : Type} (m : List (Str × α)) (k : Str)
    (g : Str × α → α) :
    ((m.map fun p => if p.1 == k then (p.1, g p) else p).map fun p => p.1) =
      m.map fun p => p.1 := by
  rw [List.map_map]
  refine List.map_congr_left fun p _ => ?_
  by_cases hp : (p.1 == k) = true
  · simp [Function.comp, hp]
  · simp [Function.comp, hp]

theorem batchDedupGo_spec (S : List TextCandidate) :
    ∀ (cands : List TextCandidate) (mapAcc : List (Str × List TextCandidate))
      (seen uniq : List Str),
      (mapAcc.map fun p => p.1) = seen →
      seen.Nodup →
      (∀ c ∈ cands, c ∈ S) →
      (∀ p ∈ mapAcc, ∀ cc ∈ p.2, cc ∈ S ∧ cc.textHash = p.1) →
      (∀ i k b, mapAcc.get? i = some (k, b) →
        ∃ c0 cs, b = c0 :: cs ∧ uniq.get? i = some c0.normalizedText ∧
          c0.textHash = k ∧ c0 ∈ S) →
      uniq.length = mapAcc.length →
      ((batchDedupGo cands mapAcc seen uniq).2.map fun p => p.1).Nodup ∧
      (∀ p ∈ (batchDedupGo cands mapAcc seen uniq).2, ∀ cc ∈ p.2,
        cc ∈ S ∧ cc.textHash = p.1) ∧
      (∀ i k b, (batchDedupGo cands mapAcc seen uniq).2.get? i = some (k, b) →
        ∃ c0 cs, b = c0 :: cs ∧
          (batchDedupGo cands mapAcc seen uniq).1.get? i =
            some c0.normalizedText ∧
          c0.textHash = k ∧ c0 ∈ S) ∧
      (∀ k2 ∈ mapAcc.map fun p => p.1,
        k2 ∈ (batchDedupGo cands mapAcc seen uniq).2.map fun p => p.1) ∧
      (∀ c ∈ cands, ∃ b,
        (c.textHash, b) ∈ (batchDedupGo cands mapAcc seen uniq).2) := by
  intro cands
  induction cands with
  | nil =>
    intro mapAcc seen uniq hkeys hnd _ hmem halign hulen
    simp only [batchDedupGo]
    exact ⟨by rw [hkeys]; exact hnd, hmem, halign, fun k2 hk2 => hk2,
      fun c hc => absurd hc (List.not_mem_nil c)⟩
  | cons c rest ih =>
    intro mapAcc seen uniq hkeys hnd hsub hmem halign hulen
    have hcS : c ∈ S := hsub c (List.mem_cons_self c rest)
    have hsubr : ∀ x ∈ rest, x ∈ S := fun x hx =>
      hsub x (List.mem_cons_of_mem c hx)
    by_cases hseen : seen.contains c.textHash = true
    · have hmemseen : c.textHash ∈ seen := List.elem_iff.mp hseen
      have hhas : jsMapHas mapAcc c.textHash = true :=
        jsMapHas_of_keys hkeys hmemseen
      simp only [batchDedupGo]
      rw [if_pos hseen, if_pos hhas]
      have hkeys2 : ((mapAcc.map fun p =>
          if p.1 == c.textHash then (p.1, p.2 ++ [c]) else p).map fun p => p.1) =
          seen := by
        rw [update_keys mapAcc c.textHash fun p => p.2 ++ [c]]
        exact hkeys
      have hmem2 : ∀ p ∈ (mapAcc.map fun p =>
          if p.1 == c.textHash then (p.1, p.2 ++ [c]) else p), ∀ cc ∈ p.2,
          cc ∈ S ∧ cc.textHash = p.1 := by
        intro p hp cc hcc
        rcases List.mem_map.mp hp with ⟨q, hq, hqe⟩
        by_cases hq1 : (q.1 == c.textHash) = true
        · rw [if_pos hq1] at hqe
          rw [← hqe] at hcc ⊢
          rcases List.mem_append.mp hcc with hcc | hcc
          · exact hmem q hq cc hcc
          · simp only [List.mem_singleton] at hcc
            rw [hcc]
            exact ⟨hcS, beq_iff_eq.mp hq1 ▸ rfl⟩
        · rw [if_neg hq1] at hqe
          rw [← hqe] at hcc ⊢
          exact hmem q hq cc hcc
      have halign2 : ∀ i k b, (mapAcc.map fun p =>
          if p.1 == c.textHash then (p.1, p.2 ++ [c]) else p).get? i =
          some (k, b) →
          ∃ c0 cs, b = c0 :: cs ∧ uniq.get? i = some c0.normalizedText ∧
            c0.textHash = k ∧ c0 ∈ S := by
        intro i k b hget
        rw [List.get?_map] at hget
        rcases hq : mapAcc.get? i with _ | q
        · rw [hq] at hget; cases hget
        · rw [hq] at hget
          rcases q with ⟨k0, b0⟩
          have hget2 : (if (k0 == c.textHash) = true then (k0, b0 ++ [c])
              else (k0, b0)) = (k, b) := Option.some.inj hget
          rcases halign i k0 b0 hq with ⟨c0, cs, hb0, huniq, hth, hc0S⟩
          by_cases hq1 : (k0 == c.textHash) = true
          · rw [if_pos hq1] at hget2
            cases hget2
            exact ⟨c0, cs ++ [c], by rw [hb0]; rfl, huniq, hth, hc0S⟩
          · rw [if_neg hq1] at hget2
            cases hget2
            exact ⟨c0, cs, hb0, huniq, hth, hc0S⟩
      have hulen2 : uniq.length = (mapAcc.map fun p =>
          if p.1 == c.textHash then (p.1, p.2 ++ [c]) else p).length := by
        rw [List.length_map]
        exact hulen
      rcases ih _ seen uniq hkeys2 hnd hsubr hmem2 halign2 hulen2 with
        ⟨r1, r2, r3, r4, r5⟩
      refine ⟨r1, r2, r3, ?_, ?_⟩
      · intro k2 hk2
        apply r4
        rw [hkeys2, ← hkeys]
        exact hk2
      · intro x hx
        rcases List.mem_cons.mp hx with hx | hx
        · have hkey : x.textHash ∈ ((mapAcc.map fun p =>
              if p.1 == c.textHash then (p.1, p.2 ++ [c]) else p).map
                fun p => p.1) := by
            rw [hkeys2, hx]
            exact hmemseen
          rcases List.mem_map.mp (r4 x.textHash hkey) with ⟨p, hp, hp1⟩
          exact ⟨p.2, by rw [← hp1]; exact hp⟩
        · exact r5 x hx
    · have hnmem : c.textHash ∉ seen := fun hm => hseen (List.elem_iff.mpr hm)
      have hhas : jsMapHas mapAcc c.textHash = false :=
        jsMapHas_false_of_keys hkeys hnmem
      simp only [batchDedupGo]
      rw [if_neg (by rw [bool_eq_false hseen]; exact Bool.false_ne_true),
        if_neg (by rw [hhas]; exact Bool.false_ne_true)]
      have hkeys2 : ((mapAcc ++ [(c.textHash, [c])]).map fun p => p.1) =
          seen ++ [c.textHash] := by
        rw [List.map_append, hkeys]
        rfl
      have hnd2 : (seen ++ [c.textHash]).Nodup := by
        rw [List.nodup_append]
        exact ⟨hnd, List.nodup_singleton _,
          fun a ha hb => hnmem (by
            simp only [List.mem_singleton] at hb
            rw [← hb]; exact ha)⟩
      have hmem2 : ∀ p ∈ mapAcc ++ [(c.textHash, [c])], ∀ cc ∈ p.2,
          cc ∈ S ∧ cc.textHash = p.1 := by
        intro p hp cc hcc
        rcases List.mem_append.mp hp with hp | hp
        · exact hmem p hp cc hcc
        · simp only [List.mem_singleton] at hp
          rw [hp] at hcc
          simp only [List.mem_singleton] at hcc
          rw [hp, hcc]
          exact ⟨hcS, rfl⟩
      have halign2 : ∀ i k b,
          (mapAcc ++ [(c.textHash, [c])]).get? i = some (k, b) →
          ∃ c0 cs, b = c0 :: cs ∧
            (uniq ++ [c.normalizedText]).get? i = some c0.normalizedText ∧
            c0.textHash = k ∧ c0 ∈ S := by
        intro i k b hget
        rcases Nat.lt_trichotomy i mapAcc.length with hi | hi | hi
        · rw [List.get?_append hi] at hget
          rcases halign i k b hget with ⟨c0, cs, hb, huniq, hth, hc0S⟩
          refine ⟨c0, cs, hb, ?_, hth, hc0S⟩
          rw [List.get?_append (by rw [hulen]; exact hi)]
          exact huniq
        · rw [List.get?_append_right (le_of_eq hi.symm)] at hget
          rw [hi, Nat.sub_self] at hget
          simp only [List.get?] at hget
          cases hget
          refine ⟨c, [], rfl, ?_, rfl, hcS⟩
          rw [hi, ← hulen, List.get?_concat_length]
        · exfalso
          have hlen2 : (mapAcc ++ [(c.textHash, [c])]).length ≤ i := by
            rw [List.length_append]
            simpa using hi
          rw [List.get?_eq_none.mpr hlen2] at hget
          cases hget
      have hulen2 : (uniq ++ [c.normalizedText]).length =
          (mapAcc ++ [(c.textHash, [c])]).length := by
        rw [List.length_append, List.length_append, hulen]
        rfl
      rcases ih _ (seen ++ [c.textHash]) (uniq ++ [c.normalizedText]) hkeys2
        hnd2 hsubr hmem2 halign2 hulen2 with ⟨r1, r2, r3, r4, r5⟩
      refine ⟨r1, r2, r3, ?_, ?_⟩
      · intro k2 hk2
        apply r4
        rw [hkeys2]
        rw [hkeys] at hk2
        exact List.mem_append_left _ hk2
      · intro x hx
        rcases List.mem_cons.mp hx with hx | hx
        · have hkey : x.textHash ∈ ((mapAcc ++ [(c.textHash, [c])]).map
              fun p => p.1) := by
            rw [hkeys2, hx]
            exact List.mem_append_right _ (List.mem_singleton.mpr rfl)
          rcases List.mem_map.mp (r4 x.textHash hkey) with ⟨p, hp, hp1⟩
          exact ⟨p.2, by rw [← hp1]; exact hp⟩
        · exact r5 x hx

theorem get?_some_lt {α : Type} {l : List α} {i : Nat} {a : α}
    (h : l.get? i = some a) : i < l.length := by
  by_contra hc
  rw [List.get?_eq_none.mpr (Nat.le_of_not_lt hc)] at h
  cases h

/-- C3 (amended): for every plan whose `uniqueTexts`/`textHashMap` come from
`batchDeduplicate` of its `toSend`, whose candidates carry their own FNV
hash (`textHash = hashText normalizedText`) and whose `toSend` contains no
FNV-hash collision between distinct normalized texts, and every results
array of matching length: the merge succeeds and sends the textHash of
every candidate in `toSend` to `results[i]`, where i is the position of the
candidate's normalized text in `uniqueTexts`; a hash whose aligned result
is the empty string is absent from the returned map and causes no error. -/
theorem claim_C3_merge_positional_no_collision
    (toSend : List TextCandidate) (toApply : List (TextCandidate × Str))
    (stats : TranslationPlanStats) (apiResults : List Str)
    (hcons : ∀ c ∈ toSend, c.textHash = hashText c.normalizedText)
    (hnocol : ∀ c1 ∈ toSend, ∀ c2 ∈ toSend,
      c1.textHash = c2.textHash → c1.normalizedText = c2.normalizedText)
    (hlen : apiResults.length = (batchDeduplicate toSend).1.length) :
    ∃ M, mergeApiResults
        { toApplyFromCache := toApply, toSend := toSend,
          uniqueTexts := (batchDeduplicate toSend).1,
          textHashMap := (batchDeduplicate toSend).2, stats := stats }
        apiResults = Except.ok M ∧
      ∀ c ∈ toSend, ∃ i r,
        (batchDeduplicate toSend).1.get? i = some c.normalizedText ∧
        apiResults.get? i = some r ∧
        (0 < r.length → jsMapGet M c.textHash = some r) ∧
        (r.length = 0 → jsMapGet M c.textHash = none) := by
  rcases batchDedupGo_spec toSend toSend [] [] [] rfl List.nodup_nil
    (fun c hc => hc) (by intro p hp; cases hp) (by intro i k b h; simp at h)
    rfl with ⟨r1, _, r3, _, r5⟩
  have hbd : batchDedupGo toSend [] [] [] = batchDeduplicate toSend := rfl
  rw [hbd] at r1 r3 r5
  have hlen2 : (batchDeduplicate toSend).1.length =
      (batchDeduplicate toSend).2.length :=
    batchDedupGo_length toSend [] [] [] rfl rfl
  have huniqnd : (batchDeduplicate toSend).1.Nodup := by
    rw [List.nodup_iff_get?_ne_get?]
    intro i j hij hj heq
    have hjlt : j < (batchDeduplicate toSend).2.length := by
      rw [← hlen2]; exact hj
    have hilt : i < (batchDeduplicate toSend).2.length :=
      Nat.lt_trans hij hjlt
    rcases hpi : (batchDeduplicate toSend).2.get? i with _ | pi
    · rw [List.get?_eq_none] at hpi; omega
    rcases hpj : (batchDeduplicate toSend).2.get? j with _ | pj
    · rw [List.get?_eq_none] at hpj; omega
    rcases pi with ⟨ki, bi⟩
    rcases pj with ⟨kj, bj⟩
    rcases r3 i ki bi hpi with ⟨c0i, csi, _, hui, hthi, hSi⟩
    rcases r3 j kj bj hpj with ⟨c0j, csj, _, huj, hthj, hSj⟩
    rw [hui, huj] at heq
    have htexteq : c0i.normalizedText = c0j.normalizedText :=
      Option.some.inj heq
    have hkeq : ki = kj := by
      rw [← hthi, ← hthj, hcons c0i hSi, hcons c0j hSj, htexteq]
    have hknd := List.nodup_iff_get?_ne_get?.mp r1 i j hij
      (by rw [List.length_map]; exact hjlt)
    apply hknd
    rw [List.get?_map, List.get?_map, hpi, hpj]
    simp [hkeq]
  have hkeyszip : (((batchDeduplicate toSend).1.zip apiResults).map
      fun p => p.1).Nodup := by
    rw [show ((((batchDeduplicate toSend).1.zip apiResults).map
        fun p => p.1) : List Str) =
      ((batchDeduplicate toSend).1.zip apiResults).map Prod.fst from rfl]
    rw [List.map_fst_zip _ _ (le_of_eq hlen.symm)]
    exact huniqnd
  have hbuckets : ∀ p ∈ (batchDeduplicate toSend).2, p.2 ≠ [] :=
    batchDedupGo_buckets_ne_nil toSend [] [] [] (by simp)
  rcases mergeGo_ok (((batchDeduplicate toSend).1.zip apiResults).foldl
      (fun m p => jsMapSet m p.1 p.2) []) (batchDeduplicate toSend).2 []
      hbuckets with ⟨M, hM⟩
  refine ⟨M, ?_, ?_⟩
  · rw [mergeApiResults, if_neg (fun hne => hne hlen)]
    exact hM
  · intro c hcm
    rcases r5 c hcm with ⟨b, hbmem⟩
    rcases List.get?_of_mem hbmem with ⟨i, hpi⟩
    rcases r3 i c.textHash b hpi with ⟨c0, cs, hb, hui, hth, hS⟩
    have htext : c0.normalizedText = c.normalizedText := hnocol c0 hS c hcm hth
    have hilt : i < (batchDeduplicate toSend).1.length := get?_some_lt hui
    have hiapi : i < apiResults.length := by rw [hlen]; exact hilt
    rcases hr : apiResults.get? i with _ | r
    · rw [List.get?_eq_none] at hr; omega
    have hzip : (((batchDeduplicate toSend).1.zip apiResults)).get? i =
        some (c0.normalizedText, r) :=
      (List.get?_zip_eq_some _ _ _ _).mpr ⟨hui, hr⟩
    have ht2t : jsMapGet (((batchDeduplicate toSend).1.zip apiResults).foldl
        (fun m p => jsMapSet m p.1 p.2) []) c0.normalizedText = some r :=
      foldSet_get _ [] c0.normalizedText r hkeyszip (List.get?_mem hzip)
    have hlook := mergeGo_lookup _ (batchDeduplicate toSend).2 [] M r1
      (fun k _ => rfl) hM c.textHash b c0 hbmem (by rw [hb]; rfl)
    rw [ht2t] at hlook
    simp only [] at hlook
    refine ⟨i, r, by rw [hui, htext], hr, ?_, ?_⟩
    · intro hrlen
      rw [hlook, if_pos hrlen]
    · intro hrlen0
      rw [hlook, if_neg (by omega)]

/-- C3 counterexample: FNV-1a collides on the 4-character ASCII texts
"l9On" and "H8aa".  In the plan created from two nodes carrying those
texts, both candidates are in `toSend` but `uniqueTexts` holds only
"l9On" — the normalized text of the "H8aa" candidate has no position in
`uniqueTexts` at all — and merging with the single aligned result "X" maps
the shared hash, hence the "H8aa" candidate, to the result aligned with
"l9On".  This refutes the claim as stated for every candidate of every
plan. -/
theorem claim_C3_counterexample_collision :
    hashText [108, 57, 79, 110] = hashText [72, 56, 97, 97] ∧
    ((createTranslationPlan collisionNodes (fun _ => []) (fun _ => none)
        (fun _ _ => none) [65, 49]).toSend.map fun c => c.normalizedText) =
      [[108, 57, 79, 110], [72, 56, 97, 97]] ∧
    (createTranslationPlan collisionNodes (fun _ => []) (fun _ => none)
        (fun _ _ => none) [65, 49]).uniqueTexts = [[108, 57, 79, 110]] ∧
    (createTranslationPlan collisionNodes (fun _ => []) (fun _ => none)
        (fun _ _ => none) [65, 49]).uniqueTexts.contains [72, 56, 97, 97] =
      false ∧
    mergeApiResults (createTranslationPlan collisionNodes (fun _ => [])
        (fun _ => none) (fun _ _ => none) [65, 49]) [[88]] =
      Except.ok [(hashText [72, 56, 97, 97], [88])] :=
  ⟨by decide, by decide, by decide, by decide, by rfl⟩

/-- Witness for the amended C3 at a concrete input: a single collision-free
candidate with text "a" and the aligned result "X". -/
theorem claim_C3_merge_positional_no_collision_witness :
    (∀ c ∈ [candA], c.textHash = hashText c.normalizedText) ∧
    (∀ c1 ∈ [candA], ∀ c2 ∈ [candA],
      c1.textHash = c2.textHash → c1.normalizedText = c2.normalizedText) ∧
    ([[88]] : List Str).length = (batchDeduplicate [candA]).1.length ∧
    (∃ M, mergeApiResults
        { toApplyFromCache := [], toSend := [candA],
          uniqueTexts := (batchDeduplicate [candA]).1,
          textHashMap := (batchDeduplicate [candA]).2, stats := statsZero }
        [[88]] = Except.ok M ∧
      ∀ c ∈ [candA], ∃ i r,
        (batchDeduplicate [candA]).1.get? i = some c.normalizedText ∧
        ([[88]] : List Str).get? i = some r ∧
        (0 < r.length → jsMapGet M c.textHash = some r) ∧
        (r.length = 0 → jsMapGet M c.textHash = none)) :=
  ⟨by decide, by decide, by decide,
    claim_C3_merge_positional_no_collision [candA] [] statsZero [[88]]
      (by decide) (by decide) (by decide)⟩

/-! ### DomReplacer: claim C7 -/

theorem mkNodeFingerprintInfo_congr {d1 d2 : Nat → Str} {now node : Nat}
    {userLevel : Str} {mode : Mode} (h : d1 node = d2 node) :
    mkNodeFingerprintInfo d1 now node userLevel mode =
      mkNodeFingerprintInfo d2 now node userLevel mode := by
  simp [mkNodeFingerprintInfo, h]

theorem applyGo_cons_skip (m : List (Str × Str)) (userLevel : Str) (now : Nat)
    (c : TextCandidate) (l : List TextCandidate) (dom : DomState)
    (fp : FingerprintMap) (rep : List Str) (app : Nat)
    (hskip : willApply dom m c = false) :
    applyTranslationsGo m userLevel now (c :: l) dom fp rep app =
      applyTranslationsGo m userLevel now l dom fp rep app := by
  rcases hget : jsMapGet m c.textHash with _ | t
  · simp only [applyTranslationsGo, hget]
  · rw [willApply, hget] at hskip
    simp only [] at hskip
    by_cases hlen0 : t.length = 0
    · simp only [applyTranslationsGo, hget, if_pos hlen0]
    · rw [if_neg hlen0] at hskip
      simp only [applyTranslationsGo, hget]
      rw [if_neg hlen0, if_neg (by rw [hskip]; exact Bool.false_ne_true)]

theorem applyGo_cons_apply (m : List (Str × Str)) (userLevel : Str) (now : Nat)
    (c : TextCandidate) (l : List TextCandidate) (dom : DomState)
    (fp : FingerprintMap) (rep : List Str) (app : Nat) (t : Str)
    (hget : jsMapGet m c.textHash = some t) (hlen0 : ¬ t.length = 0)
    (hlive : nodeLive dom c.node = true) :
    applyTranslationsGo m userLevel now (c :: l) dom fp rep app =
      applyTranslationsGo m userLevel now l
        { dom with text := fun k => if k = c.node then t else dom.text k }
        (markAsProcessed fp (fun k => if k = c.node then t else dom.text k)
          now c.node userLevel .translated)
        (if rep.contains c.nodeData.id then rep else rep ++ [c.nodeData.id])
        (app + 1) := by
  simp only [applyTranslationsGo, hget]
  rw [if_neg hlen0, if_pos hlive]

theorem applyGo_spec (m : List (Str × Str)) (userLevel : Str) (now : Nat) :
    ∀ (cands : List TextCandidate) (dom : DomState) (fp : FingerprintMap)
      (rep : List Str) (app : Nat),
      ((cands.map fun c => c.node).Nodup) →
      (applyTranslationsGo m userLevel now cands dom fp rep app).2.2.2 =
        app + cands.countP (fun c => willApply dom m c) ∧
      (∀ c ∈ cands, willApply dom m c = true →
        ∃ t, jsMapGet m c.textHash = some t ∧ 0 < t.length ∧
          (applyTranslationsGo m userLevel now cands dom fp rep app).1.text
            c.node = t ∧
          (applyTranslationsGo m userLevel now cands dom fp rep app).2.1
            c.node = some (mkNodeFingerprintInfo
              (applyTranslationsGo m userLevel now cands dom fp rep app).1.text
              now c.node userLevel .translated)) ∧
      (∀ c ∈ cands, willApply dom m c = false →
        (applyTranslationsGo m userLevel now cands dom fp rep app).1.text
          c.node = dom.text c.node ∧
        (applyTranslationsGo m userLevel now cands dom fp rep app).2.1
          c.node = fp c.node) ∧
      (∀ n, n ∉ cands.map (fun c => c.node) →
        (applyTranslationsGo m userLevel now cands dom fp rep app).1.text n =
          dom.text n ∧
        (applyTranslationsGo m userLevel now cands dom fp rep app).2.1 n =
          fp n) := by
  intro cands
  induction cands with
  | nil =>
    intro dom fp rep app _
    refine ⟨?_, ?_, ?_, ?_⟩
    · simp [applyTranslationsGo]
    · intro c hc
      exact absurd hc (List.not_mem_nil c)
    · intro c hc
      exact absurd hc (List.not_mem_nil c)
    · intro n _
      exact ⟨rfl, rfl⟩
  | cons c cands2 ih =>
    intro dom fp rep app hnd
    simp only [List.map_cons, List.nodup_cons] at hnd
    by_cases hwa : willApply dom m c = true
    · rcases hget : jsMapGet m c.textHash with _ | t
      · exfalso
        rw [willApply, hget] at hwa
        exact Bool.false_ne_true hwa
      · have hcomp : ¬ t.length = 0 ∧ nodeLive dom c.node = true := by
          rw [willApply, hget] at hwa
          simp only [] at hwa
          by_cases hlen0 : t.length = 0
          · rw [if_pos hlen0] at hwa
            exact absurd hwa Bool.false_ne_true
          · rw [if_neg hlen0] at hwa
            exact ⟨hlen0, hwa⟩
        rcases hcomp with ⟨hlen0, hlive⟩
        rw [applyGo_cons_apply m userLevel now c cands2 dom fp rep app t
          hget hlen0 hlive]
        have ihx := ih
          { dom with text := fun k => if k = c.node then t else dom.text k }
          (markAsProcessed fp
            (fun k => if k = c.node then t else dom.text k)
            now c.node userLevel .translated)
          (if rep.contains c.nodeData.id then rep else rep ++ [c.nodeData.id])
          (app + 1) hnd.2
        rcases ihx with ⟨ic, i1, i0, iu⟩
        have hwconv : (fun x => willApply { dom with
            text := fun k => if k = c.node then t else dom.text k } m x) =
            fun x => willApply dom m x := rfl
        have huc := iu c.node hnd.1
        refine ⟨?_, ?_, ?_, ?_⟩
        · rw [ic, hwconv,
            List.countP_cons_of_pos (fun c => willApply dom m c) _
              (by exact hwa)]
          omega
        · intro x hx hwx
          rcases List.mem_cons.mp hx with hx | hx
          · subst hx
            refine ⟨t, hget, Nat.pos_of_ne_zero hlen0, ?_, ?_⟩
            · rw [huc.1]
              simp
            · rw [huc.2, markAsProcessed, if_pos rfl]
              refine congrArg _ (mkNodeFingerprintInfo_congr ?_)
              exact huc.1.symm
          · exact i1 x hx hwx
        · intro x hx hwx
          rcases List.mem_cons.mp hx with hx | hx
          · subst hx
            rw [hwx] at hwa
            exact absurd hwa Bool.false_ne_true
          · have hne : x.node ≠ c.node := by
              intro he
              exact hnd.1 (he ▸ List.mem_map.mpr ⟨x, hx, rfl⟩)
            rcases i0 x hx hwx with ⟨ht, hf⟩
            constructor
            · rw [ht]
              simp [hne]
            · rw [hf, markAsProcessed, if_neg hne]
        · intro n hn
          simp only [List.map_cons, List.mem_cons] at hn
          push_neg at hn
          have hne : n ≠ c.node := hn.1
          rcases iu n hn.2 with ⟨ht, hf⟩
          constructor
          · rw [ht]
            simp [hne]
          · rw [hf, markAsProcessed, if_neg hne]
    · have hwa2 : willApply dom m c = false := bool_eq_false hwa
      rw [applyGo_cons_skip m userLevel now c cands2 dom fp rep app hwa2]
      rcases ih dom fp rep app hnd.2 with ⟨ic, i1, i0, iu⟩
      have huc := iu c.node hnd.1
      refine ⟨?_, ?_, ?_, ?_⟩
      · rw [ic, List.countP_cons_of_neg (fun c => willApply dom m c) _
          (by exact hwa)]
      · intro x hx hwx
        rcases List.mem_cons.mp hx with hx | hx
        · subst hx
          rw [hwx] at hwa2
          exact absurd hwa2.symm Bool.false_ne_true
        · exact i1 x hx hwx
      · intro x hx hwx
        rcases List.mem_cons.mp hx with hx | hx
        · subst hx
          exact huc
        · exact i0 x hx hwx
      · intro n hn
        simp only [List.map_cons, List.mem_cons] at hn
        push_neg at hn
        exact iu n hn.2

/-- C7: over candidates backed by pairwise-distinct nodes,
`applyTranslations` writes exactly those candidates whose textHash maps to
a non-empty translation and whose node (with its parent element) is still
connected: each such node's text content becomes the translation and the
node is re-marked in the fingerprint store with mode translated; every
other candidate is skipped without error, its text and fingerprint
unchanged; nodes backing no candidate are untouched; and the returned
count equals the number of candidates written. -/
theorem claim_C7_applyTranslations_exact (candidates : List TextCandidate)
    (hashToTranslation : List (Str × Str)) (userLevel : Str) (dom : DomState)
    (fp : FingerprintMap) (replaced : List Str) (now : Nat)
    (hnd : (candidates.map fun c => c.node).Nodup) :
    (applyTranslations candidates hashToTranslation userLevel dom fp replaced
        now).2.2.2 =
      candidates.countP (fun c => willApply dom hashToTranslation c) ∧
    (∀ c ∈ candidates, willApply dom hashToTranslation c = true →
      ∃ t, jsMapGet hashToTranslation c.textHash = some t ∧ 0 < t.length ∧
        (applyTranslations candidates hashToTranslation userLevel dom fp
          replaced now).1.text c.node = t ∧
        (applyTranslations candidates hashToTranslation userLevel dom fp
          replaced now).2.1 c.node = some (mkNodeFingerprintInfo
            (applyTranslations candidates hashToTranslation userLevel dom fp
              replaced now).1.text now c.node userLevel .translated)) ∧
    (∀ c ∈ candidates, willApply dom hashToTranslation c = false →
      (applyTranslations candidates hashToTranslation userLevel dom fp
        replaced now).1.text c.node = dom.text c.node ∧
      (applyTranslations candidates hashToTranslation userLevel dom fp
        replaced now).2.1 c.node = fp c.node) ∧
    (∀ n, n ∉ candidates.map (fun c => c.node) →
      (applyTranslations candidates hashToTranslation userLevel dom fp
        replaced now).1.text n = dom.text n ∧
      (applyTranslations candidates hashToTranslation userLevel dom fp
        replaced now).2.1 n = fp n) := by
  have h := applyGo_spec hashToTranslation userLevel now candidates dom fp
    replaced 0 hnd
  refine ⟨?_, h.2.1, h.2.2.1, h.2.2.2⟩
  rw [applyTranslations, h.1]
  exact Nat.zero_add _

/-- Witness for C7 at a concrete input: one connected candidate with text
"a" whose hash maps to the translation "X". -/
theorem claim_C7_applyTranslations_exact_witness :
    (([candA].map fun c => c.node).Nodup) ∧
    ((applyTranslations [candA] [(hashText [97], [88])] [65, 49] domA
        (fun _ => none) [] 0).2.2.2 =
      [candA].countP (fun c => willApply domA [(hashText [97], [88])] c) ∧
    (∀ c ∈ [candA], willApply domA [(hashText [97], [88])] c = true →
      ∃ t, jsMapGet [(hashText [97], [88])] c.textHash = some t ∧
        0 < t.length ∧
        (applyTranslations [candA] [(hashText [97], [88])] [65, 49] domA
          (fun _ => none) [] 0).1.text c.node = t ∧
        (applyTranslations [candA] [(hashText [97], [88])] [65, 49] domA
          (fun _ => none) [] 0).2.1 c.node = some (mkNodeFingerprintInfo
            (applyTranslations [candA] [(hashText [97], [88])] [65, 49] domA
              (fun _ => none) [] 0).1.text 0 c.node [65, 49] .translated)) ∧
    (∀ c ∈ [candA], willApply domA [(hashText [97], [88])] c = false →
      (applyTranslations [candA] [(hashText [97], [88])] [65, 49] domA
        (fun _ => none) [] 0).1.text c.node = domA.text c.node ∧
      (applyTranslations [candA] [(hashText [97], [88])] [65, 49] domA
        (fun _ => none) [] 0).2.1 c.node = (fun _ => none : FingerprintMap)
          c.node) ∧
    (∀ n, n ∉ [candA].map (fun c => c.node) →
      (applyTranslations [candA] [(hashText [97], [88])] [65, 49] domA
        (fun _ => none) [] 0).1.text n = domA.text n ∧
      (applyTranslations [candA] [(hashText [97], [88])] [65, 49] domA
        (fun _ => none) [] 0).2.1 n = (fun _ => none : FingerprintMap) n)) :=
  ⟨by decide,
    claim_C7_applyTranslations_exact [candA] [(hashText [97], [88])] [65, 49]
      domA (fun _ => none) [] 0 (by decide)⟩

/-! ### TranslationCache: claim C5 -/

theorem generateKey_ne_nil (text userLevel : Str) :
    TranslationCache.generateKey text userLevel ≠ [] := by
  rw [TranslationCache.generateKey]
  simp

theorem jsMapSet_length_le {α : Type} (m : List (Str × α)) (k : Str) (v : α) :
    (jsMapSet m k v).length ≤ m.length + 1 := by
  rw [jsMapSet]
  by_cases hhas : jsMapHas m k = true
  · rw [if_pos hhas, List.length_map]
    omega
  · rw [if_neg hhas]
    simp

theorem jsMapSet_mem_sub {α : Type} {m : List (Str × α)} {k : Str} {v : α}
    {p : Str × α} (hp : p ∈ jsMapSet m k v) : p.1 = k ∨ p ∈ m := by
  rw [jsMapSet] at hp
  by_cases hhas : jsMapHas m k = true
  · rw [if_pos hhas] at hp
    rcases List.mem_map.mp hp with ⟨q, hq, hqe⟩
    by_cases hq1 : (q.1 == k) = true
    · rw [if_pos hq1] at hqe
      rw [← hqe]
      exact Or.inl (beq_iff_eq.mp hq1)
    · rw [if_neg hq1] at hqe
      rw [← hqe]
      exact Or.inr hq
  · rw [if_neg hhas] at hp
    rcases List.mem_append.mp hp with hp | hp
    · exact Or.inr hp
    · simp only [List.mem_singleton] at hp
      rw [hp]
      exact Or.inl rfl

theorem jsMapDelete_sub {α : Type} {m : List (Str × α)} {k : Str}
    {p : Str × α} (hp : p ∈ jsMapDelete m k) : p ∈ m :=
  List.mem_of_mem_filter hp

theorem jsMapDelete_length_lt {α : Type} :
    ∀ {m : List (Str × α)} {k : Str}, k ∈ (m.map fun p => p.1) →
      (jsMapDelete m k).length < m.length := by
  intro m
  induction m with
  | nil => intro k hk; cases hk
  | cons q rest ih =>
    intro k hk
    by_cases hq1 : (q.1 == k) = true
    · rw [jsMapDelete, List.filter_cons_of_neg (by rw [hq1]; decide)]
      calc (rest.filter fun p => !(p.1 == k)).length
          ≤ rest.length := List.length_filter_le _ _
        _ < (q :: rest).length := by simp
    · rw [jsMapDelete, List.filter_cons_of_pos (by rw [bool_eq_false hq1]; rfl)]
      have hk2 : k ∈ rest.map fun p => p.1 := by
        rcases List.mem_map.mp hk with ⟨p, hp, hpe⟩
        rcases List.mem_cons.mp hp with hp | hp
        · exact absurd (beq_iff_eq.mpr (by rw [← hp]; exact hpe)) hq1
        · exact List.mem_map.mpr ⟨p, hp, hpe⟩
      have := ih hk2
      simp only [List.length_cons, jsMapDelete] at this ⊢
      omega

theorem selGo_min_some {V : Type} (now : Nat) :
    ∀ (l : List (Str × CacheItem V)) (bk : Str) (s : ℚ),
      (selectLeastUsedGo now bk (some s) l = bk ∧
        ∀ p ∈ l, s ≤ cacheScore now p.2) ∨
      (∃ it, (selectLeastUsedGo now bk (some s) l, it) ∈ l ∧
        cacheScore now it ≤ s ∧
        ∀ p ∈ l, cacheScore now it ≤ cacheScore now p.2) := by
  intro l
  induction l with
  | nil =>
    intro bk s
    exact Or.inl ⟨rfl, fun p hp => absurd hp (List.not_mem_nil p)⟩
  | cons q rest ih =>
    intro bk s
    rcases q with ⟨k, it⟩
    by_cases hlt : cacheScore now it < s
    · rw [selectLeastUsedGo]
      simp only [if_pos hlt]
      rcases ih k (cacheScore now it) with ⟨heq, hall⟩ | ⟨it2, hmem, hle, hall⟩
      · refine Or.inr ⟨it, by rw [heq]; exact List.mem_cons_self _ _,
          le_of_lt hlt, ?_⟩
        intro p hp
        rcases List.mem_cons.mp hp with hp | hp
        · rw [hp]
        · exact hall p hp
      · refine Or.inr ⟨it2, List.mem_cons_of_mem _ hmem,
          le_trans hle (le_of_lt hlt), ?_⟩
        intro p hp
        rcases List.mem_cons.mp hp with hp | hp
        · rw [hp]; exact hle
        · exact hall p hp
    · rw [selectLeastUsedGo]
      simp only [if_neg hlt]
      rcases ih bk s with ⟨heq, hall⟩ | ⟨it2, hmem, hle, hall⟩
      · refine Or.inl ⟨heq, ?_⟩
        intro p hp
        rcases List.mem_cons.mp hp with hp | hp
        · rw [hp]; exact le_of_not_lt hlt
        · exact hall p hp
      · refine Or.inr ⟨it2, List.mem_cons_of_mem _ hmem, hle, ?_⟩
        intro p hp
        rcases List.mem_cons.mp hp with hp | hp
        · rw [hp]; exact le_trans hle (le_of_not_lt hlt)
        · exact hall p hp

theorem selectLeastUsed_spec {V : Type} (now : Nat)
    (entries : List (Str × CacheItem V)) (hne : entries ≠ []) :
    ∃ it, (selectLeastUsed now entries, it) ∈ entries ∧
      ∀ p ∈ entries, cacheScore now it ≤ cacheScore now p.2 := by
  rcases entries with _ | ⟨⟨k0, it0⟩, rest⟩
  · exact absurd rfl hne
  · rw [selectLeastUsed, selectLeastUsedGo]
    rcases selGo_min_some now rest k0 (cacheScore now it0) with
      ⟨heq, hall⟩ | ⟨it2, hmem, hle, hall⟩
    · refine ⟨it0, by rw [heq]; exact List.mem_cons_self _ _, ?_⟩
      intro p hp
      rcases List.mem_cons.mp hp with hp | hp
      · rw [hp]
      · exact hall p hp
    · refine ⟨it2, List.mem_cons_of_mem _ hmem, ?_⟩
      intro p hp
      rcases List.mem_cons.mp hp with hp | hp
      · rw [hp]; exact hle
      · exact hall p hp

theorem evictLeastUsed_maxSize {V : Type} (c : TranslationCache V)
    (now : Nat) : (evictLeastUsed c now).maxSize = c.maxSize := by
  simp only [evictLeastUsed]
  split
  · rfl
  · rfl

theorem evictLeastUsed_entries_of_ne {V : Type} (c : TranslationCache V)
    (now : Nat) (h : selectLeastUsed now c.entries ≠ []) :
    (evictLeastUsed c now).entries =
      jsMapDelete c.entries (selectLeastUsed now c.entries) := by
  simp only [evictLeastUsed]
  rw [if_neg (by simp only [List.isEmpty_iff]; exact h)]

theorem applyCacheOp_inv {V : Type} (c : TranslationCache V) (op : CacheOp V)
    (h1 : 1 ≤ c.maxSize) (hlen : c.entries.length ≤ c.maxSize)
    (hkeys : ∀ p ∈ c.entries, p.1 ≠ []) :
    (applyCacheOp c op).entries.length ≤ c.maxSize ∧
    (∀ p ∈ (applyCacheOp c op).entries, p.1 ≠ []) ∧
    (applyCacheOp c op).maxSize = c.maxSize := by
  rcases op with ⟨text, userLevel, now⟩ | ⟨text, userLevel, v, now⟩ | _
  · simp only [applyCacheOp, TranslationCache.get]
    rcases hget : jsMapGet c.entries (TranslationCache.generateKey text
        userLevel) with _ | item
    · simp only [hget]
      exact ⟨hlen, hkeys, trivial⟩
    · simp only [hget]
      have hhas : jsMapHas c.entries (TranslationCache.generateKey text
          userLevel) = true := by
        rw [jsMapGet] at hget
        rw [jsMapHas]
        rcases hf : c.entries.find? fun p => p.1 ==
            TranslationCache.generateKey text userLevel with _ | p
        · rw [hf] at hget; cases hget
        · rw [hf]; rfl
      refine ⟨?_, ?_, trivial⟩
      · rw [jsMapSet, if_pos hhas, List.length_map]
        exact hlen
      · intro p hp
        rcases jsMapSet_mem_sub hp with hp | hp
        · rw [hp]; exact generateKey_ne_nil _ _
        · exact hkeys p hp
  · simp only [applyCacheOp, TranslationCache.set]
    by_cases hcap : c.maxSize ≤ c.entries.length
    · rw [if_pos hcap]
      have hceq : c.entries.length = c.maxSize := le_antisymm hlen hcap
      have hne : c.entries ≠ [] := by
        intro he
        rw [he] at hceq
        simp only [List.length_nil] at hceq
        omega
      rcases selectLeastUsed_spec now c.entries hne with ⟨it, hmem, _⟩
      have hkne : selectLeastUsed now c.entries ≠ [] :=
        hkeys _ hmem
      have hkeym : selectLeastUsed now c.entries ∈
          c.entries.map fun p => p.1 :=
        List.mem_map.mpr ⟨_, hmem, rfl⟩
      have hevict := evictLeastUsed_entries_of_ne c now hkne
      have hdlen : (jsMapDelete c.entries
          (selectLeastUsed now c.entries)).length < c.entries.length :=
        jsMapDelete_length_lt hkeym
      refine ⟨?_, ?_, evictLeastUsed_maxSize c now⟩
      · calc (jsMapSet (evictLeastUsed c now).entries _ _).length
            ≤ (evictLeastUsed c now).entries.length + 1 :=
              jsMapSet_length_le _ _ _
          _ ≤ c.maxSize := by rw [hevict]; omega
      · intro p hp
        rcases jsMapSet_mem_sub hp with hp | hp
        · rw [hp]; exact generateKey_ne_nil _ _
        · rw [hevict] at hp
          exact hkeys p (jsMapDelete_sub hp)
    · rw [if_neg hcap]
      refine ⟨?_, ?_, rfl⟩
      · calc (jsMapSet c.entries _ _).length ≤ c.entries.length + 1 :=
            jsMapSet_length_le _ _ _
          _ ≤ c.maxSize := by omega
      · intro p hp
        rcases jsMapSet_mem_sub hp with hp | hp
        · rw [hp]; exact generateKey_ne_nil _ _
        · exact hkeys p hp
  · exact ⟨by simp [applyCacheOp, TranslationCache.clear], by
      simp [applyCacheOp, TranslationCache.clear], rfl⟩

theorem runCacheOps_inv {V : Type} (maxSize : Nat) (h1 : 1 ≤ maxSize) :
    ∀ (ops : List (CacheOp V)) (c : TranslationCache V),
      c.maxSize = maxSize → c.entries.length ≤ maxSize →
      (∀ p ∈ c.entries, p.1 ≠ []) →
      (runCacheOps c ops).entries.length ≤ maxSize := by
  intro ops
  induction ops with
  | nil => intro c _ hlen _; exact hlen
  | cons op rest ih =>
    intro c hms hlen hkeys
    have hstep := applyCacheOp_inv c op (hms ▸ h1) (hms ▸ hlen) hkeys
    rw [runCacheOps, List.foldl_cons]
    exact ih (applyCacheOp c op) (hstep.2.2.trans hms)
      (hms ▸ hstep.1) hstep.2.1

/-- C5: for every cache built with capacity at least 1 and every sequence
of get/set/clear calls, the number of stored entries never exceeds the
capacity; a set performed at capacity first runs the eviction, which
removes an entry whose score accessCount / (now - timestamp + 1) is
minimal among all stored entries (the IEEE-754 division of the source is
modelled as exact rational division). -/
theorem claim_C5_cache_bounded_evicts_minimal {V : Type} (maxSize : Nat)
    (h1 : 1 ≤ maxSize) :
    (∀ ops : List (CacheOp V),
      (runCacheOps (emptyCache V maxSize) ops).entries.length ≤ maxSize) ∧
    (∀ (c : TranslationCache V) (now : Nat), c.entries ≠ [] →
      (∀ p ∈ c.entries, p.1 ≠ []) →
      ∃ it, (selectLeastUsed now c.entries, it) ∈ c.entries ∧
        (∀ p ∈ c.entries, cacheScore now it ≤ cacheScore now p.2) ∧
        (evictLeastUsed c now).entries =
          jsMapDelete c.entries (selectLeastUsed now c.entries)) ∧
    (∀ (c : TranslationCache V) (now : Nat) (text userLevel : Str) (v : V),
      c.maxSize ≤ c.entries.length →
      (TranslationCache.set c now text userLevel v).entries =
        jsMapSet (evictLeastUsed c now).entries
          (TranslationCache.generateKey text userLevel)
          { key := TranslationCache.generateKey text userLevel, value := v,
            timestamp := now, accessCount := 1 }) := by
  refine ⟨?_, ?_, ?_⟩
  · intro ops
    exact runCacheOps_inv maxSize h1 ops (emptyCache V maxSize) rfl
      (by simp [emptyCache]) (by simp [emptyCache])
  · intro c now hne hkeys
    rcases selectLeastUsed_spec now c.entries hne with ⟨it, hmem, hmin⟩
    exact ⟨it, hmem, hmin, evictLeastUsed_entries_of_ne c now (hkeys _ hmem)⟩
  · intro c now text userLevel v hcap
    rw [TranslationCache.set, if_pos hcap]

/-- Witness for C5 at capacity 1 over string values: two sets evict down to
one entry, and the eviction on a concrete two-entry cache picks the minimal
score. -/
theorem claim_C5_cache_bounded_evicts_minimal_witness :
    1 ≤ 1 ∧
    ((∀ ops : List (CacheOp Str),
      (runCacheOps (emptyCache Str 1) ops).entries.length ≤ 1) ∧
    (∀ (c : TranslationCache Str) (now : Nat), c.entries ≠ [] →
      (∀ p ∈ c.entries, p.1 ≠ []) →
      ∃ it, (selectLeastUsed now c.entries, it) ∈ c.entries ∧
        (∀ p ∈ c.entries, cacheScore now it ≤ cacheScore now p.2) ∧
        (evictLeastUsed c now).entries =
          jsMapDelete c.entries (selectLeastUsed now c.entries)) ∧
    (∀ (c : TranslationCache Str) (now : Nat) (text userLevel : Str)
        (v : Str), c.maxSize ≤ c.entries.length →
      (TranslationCache.set c now text userLevel v).entries =
        jsMapSet (evictLeastUsed c now).entries
          (TranslationCache.generateKey text userLevel)
          { key := TranslationCache.generateKey text userLevel, value := v,
            timestamp := now, accessCount := 1 })) :=
  ⟨by decide, claim_C5_cache_bounded_evicts_minimal 1 (by decide)⟩

end EEE
